import Mathlib

/-!
Verification of the parallel-for work scheduler in
`src/runtime/thread_pool_common.h`.

The scheduler is shared-memory concurrent code protected by a single mutex:
every access to the work queue and job records happens with the mutex held,
except the invocation of the task callable itself.  We therefore embed it as a
small-step transition system whose atomic steps are exactly the mutex-held
regions of the C code:

* `submitStep`   — `default_do_par_for` up to releasing the lock: lazy
  initialization, building the job, team sizing, and pushing the job.
* `loopStep`     — one evaluation of the `worker_thread` loop head with the
  lock held: exit test, the three wait branches, or claiming a task.
* `finishStep`   — the re-acquisition after `halide_do_task` returns: record
  a non-zero exit status, decrement `active_workers`.
* `retStep`      — the submitter reading `job.exit_status` after its
  `worker_thread` call returned (this read is outside the lock).
* wake steps     — a thread parked on one of the three condition variables
  resuming (broadcasts are modelled by allowing parked threads to resume).
* shutdown steps — `halide_shutdown_thread_pool` split at the join point.

Job records live in `SysState.works` and are never deallocated; a C job
whose stack frame has died is simply a record no step can reach any more —
except through the job stack itself, which is exactly the dangling-pointer
hazard the theorems about empty jobs exhibit.

A `log` field records every completed task invocation `(job, idx, status)`;
threads currently executing a task appear in phase `executing`.  The log and
the `min0` field of a job are ghost state: no step reads them.

Claim C9 (nested submissions) is settled against a second embedding at the
end of the file: the deterministic single-thread (`num_threads == 1`)
execution of the same code, where tasks may themselves call `par_for`.
-/

namespace ThreadPool

/-- A job id: index into the list of all job records ever created. -/
abbrev JobId := Nat

/-- The `work` struct.  `f` abstracts the task callable together with the
`user_context` and `closure` pointers that are passed through unchanged:
it maps the index to the returned status.  `min0` is ghost state recording
the `min` argument of the submission (the initial value of `next`). -/
structure Work where
  f : Int → Int
  min0 : Int
  next : Int
  max : Int
  activeWorkers : Int
  exitStatus : Int

instance : Inhabited Work := ⟨⟨fun _ => 0, 0, 0, 0, 0, 0⟩⟩

/-- `work::running()`: `next < max || active_workers > 0`. -/
def Work.running (w : Work) : Bool := w.next < w.max || w.activeWorkers > 0

/-- Where a thread is in `worker_thread` (or just after it, for a submitter). -/
inductive Phase where
  /-- Holding the mutex, about to evaluate the loop condition. -/
  | atLoop
  /-- Parked in `halide_cond_wait(&wakeup_owners, ...)`. -/
  | parkedOwners
  /-- Parked in `halide_cond_wait(&wakeup_a_team, ...)`. -/
  | parkedATeam
  /-- Parked in `halide_cond_wait(&wakeup_b_team, ...)` (after `a_team_size--`). -/
  | parkedBTeam
  /-- Mutex released, running `halide_do_task` for job `j` at index `idx`. -/
  | executing (j : JobId) (idx : Int)
  /-- Submitter only: `worker_thread` returned, about to read `job.exit_status`. -/
  | returning
  /-- The thread is finished; for a submitter `ret` is the value
  `default_do_par_for` returned, for a pool worker it is unused (0). -/
  | done (ret : Int)
deriving DecidableEq, Repr

/-- A thread running (or having run) `worker_thread`.  `owned` is the
`owned_job` argument: `none` for pool workers, `some j` for a submitter. -/
structure Thread where
  owned : Option JobId
  phase : Phase
deriving DecidableEq, Repr

instance : Inhabited Thread := ⟨⟨none, .atLoop⟩⟩

/-- The mutex-protected fields of `work_queue_t` that the scheduler logic
reads and writes (the mutex, condition variables and thread handles are
represented by the step structure itself). -/
structure WorkQueue where
  jobs : List JobId
  aTeamSize : Int
  targetATeamSize : Int
  shutdown : Bool
deriving DecidableEq, Repr

/-- `work_queue_t::running()`: `!shutdown`. -/
def WorkQueue.running (q : WorkQueue) : Bool := !q.shutdown

/-- The whole process state.  `envPrimary`/`envLegacy` model
`atoi(getenv("HL_NUM_THREADS"))` / `atoi(getenv("HL_NUMTHREADS"))` (`none`
when the variable is unset), `cpuCount` models `halide_host_cpu_count()`.
`log` is ghost state: completed task invocations `(job, idx, status)`. -/
structure SysState where
  queue : WorkQueue
  works : List Work
  threads : List Thread
  log : List (JobId × Int × Int)
  numThreads : Int
  initialized : Bool
  envPrimary : Option Int
  envLegacy : Option Int
  cpuCount : Int

/-- The zero-initialized static state the process starts in, for a given
environment. -/
def initState (p l : Option Int) (c : Int) : SysState :=
  { queue := { jobs := [], aTeamSize := 0, targetATeamSize := 0, shutdown := false }
    works := []
    threads := []
    log := []
    numThreads := 0
    initialized := false
    envPrimary := p
    envLegacy := l
    cpuCount := c }

/-- `MAX_THREADS`. -/
def MAX_THREADS : Int := 64

/-- The clamp at the end of the lazy-initialization block:
`if (num_threads > MAX_THREADS) ... else if (num_threads < 1) ...`. -/
def clampThreads (n : Int) : Int :=
  if n > MAX_THREADS then MAX_THREADS else if n < 1 then 1 else n

/-- The pool-size computation of the lazy-initialization block:
if `num_threads` is still zero, read `HL_NUM_THREADS`, else the legacy
`HL_NUMTHREADS`, else the host CPU count; then clamp. -/
def computeNumThreads (cur : Int) (p l : Option Int) (c : Int) : Int :=
  clampThreads
    (if cur = 0 then
      match p with
      | some v => v
      | none =>
        match l with
        | some v => v
        | none => c
    else cur)

/-- The body of `if (!thread_pool_initialized) { ... }` in
`default_do_par_for`: reset `shutdown`, clear the job stack, determine
`num_threads`, spawn `num_threads - 1` workers, put everyone on the A team,
set the latch. -/
def lazyInit (s : SysState) : SysState :=
  if s.initialized then s
  else
    let nt := computeNumThreads s.numThreads s.envPrimary s.envLegacy s.cpuCount
    { s with
      queue := { s.queue with shutdown := false, jobs := [], aTeamSize := nt }
      threads := s.threads ++ List.replicate (nt - 1).toNat ⟨none, .atLoop⟩
      numThreads := nt
      initialized := true }

/-- `default_do_par_for` up to (and including) releasing the mutex: lazy
initialization, building the job on the submitter's frame, team sizing and
the push.  The submitter then appears as a new thread at the loop head of
`worker_thread` with the fresh job as its owned job.  Returns `none` for the
spec-undefined case of submitting into a pool that is shutting down, and for
`size < 0` (the interface requires `size ≥ 0`). -/
def submitStep (f : Int → Int) (mn sz : Int) (s : SysState) : Option SysState :=
  if sz < 0 then none
  else if s.initialized && s.queue.shutdown then none
  else
    let s1 := lazyInit s
    let jid : JobId := s1.works.length
    let w : Work :=
      { f := f, min0 := mn, next := mn, max := mn + sz
        activeWorkers := 0, exitStatus := 0 }
    let target :=
      if s1.queue.jobs = [] ∧ sz < s1.numThreads then sz else s1.numThreads
    some { s1 with
      queue := { s1.queue with targetATeamSize := target, jobs := jid :: s1.queue.jobs }
      works := s1.works ++ [w]
      threads := s1.threads ++ [⟨some jid, .atLoop⟩] }

/-- One evaluation of the `worker_thread` loop head with the mutex held:
either the loop condition fails (owner proceeds to read the exit status,
worker returns), or there are no jobs and the thread parks on the
appropriate condition variable (transitioning to the B team decrements
`a_team_size`), or it claims a task from the top-of-stack job: copy the
job, `job->next++`, unlink if `job->next == job->max`, `active_workers++`,
release the mutex and call the task. -/
def loopStep (tid : Nat) (s : SysState) : Option SysState :=
  match s.threads.get? tid with
  | none => none
  | some t =>
    match t.phase with
    | .atLoop =>
      let cont :=
        match t.owned with
        | some j => (s.works.getD j default).running
        | none => s.queue.running
      if cont then
        match s.queue.jobs with
        | [] =>
          match t.owned with
          | some _ =>
            some { s with threads := s.threads.set tid { t with phase := .parkedOwners } }
          | none =>
            if s.queue.aTeamSize ≤ s.queue.targetATeamSize then
              some { s with threads := s.threads.set tid { t with phase := .parkedATeam } }
            else
              some { s with
                queue := { s.queue with aTeamSize := s.queue.aTeamSize - 1 }
                threads := s.threads.set tid { t with phase := .parkedBTeam } }
        | j :: rest =>
          let w := s.works.getD j default
          let w' := { w with next := w.next + 1, activeWorkers := w.activeWorkers + 1 }
          let jobs' := if w.next + 1 = w.max then rest else s.queue.jobs
          some { s with
            queue := { s.queue with jobs := jobs' }
            works := s.works.set j w'
            threads := s.threads.set tid { t with phase := .executing j w.next } }
      else
        match t.owned with
        | some _ =>
          some { s with threads := s.threads.set tid { t with phase := .returning } }
        | none =>
          some { s with threads := s.threads.set tid { t with phase := .done 0 } }
    | _ => none

/-- The mutex re-acquisition after `halide_do_task` returns: if the result
is non-zero, store it in the job's `exit_status`; decrement
`active_workers`; append the invocation to the ghost log; back to the loop
head.  (The conditional `wakeup_owners` broadcast is modelled by the wake
steps.) -/
def finishStep (tid : Nat) (s : SysState) : Option SysState :=
  match s.threads.get? tid with
  | none => none
  | some t =>
    match t.phase with
    | .executing j idx =>
      let w := s.works.getD j default
      let result := w.f idx
      let w' :=
        { w with
          exitStatus := if result ≠ 0 then result else w.exitStatus
          activeWorkers := w.activeWorkers - 1 }
      some { s with
        works := s.works.set j w'
        threads := s.threads.set tid { t with phase := .atLoop }
        log := s.log ++ [(j, idx, result)] }
    | _ => none

/-- The submitter's unlocked read `return job.exit_status` at the end of
`default_do_par_for`. -/
def retStep (tid : Nat) (s : SysState) : Option SysState :=
  match s.threads.get? tid with
  | none => none
  | some t =>
    match t.owned, t.phase with
    | some j, .returning =>
      some { s with
        threads := s.threads.set tid { t with phase := .done (s.works.getD j default).exitStatus } }
    | _, _ => none

/-- A thread parked on `wakeup_owners` resumes at the loop head. -/
def wakeOwnersStep (tid : Nat) (s : SysState) : Option SysState :=
  match s.threads.get? tid with
  | none => none
  | some t =>
    match t.phase with
    | .parkedOwners =>
      some { s with threads := s.threads.set tid { t with phase := .atLoop } }
    | _ => none

/-- A thread parked on `wakeup_a_team` resumes at the loop head. -/
def wakeATeamStep (tid : Nat) (s : SysState) : Option SysState :=
  match s.threads.get? tid with
  | none => none
  | some t =>
    match t.phase with
    | .parkedATeam =>
      some { s with threads := s.threads.set tid { t with phase := .atLoop } }
    | _ => none

/-- A thread parked on `wakeup_b_team` resumes: `a_team_size++`, back to the
loop head. -/
def wakeBTeamStep (tid : Nat) (s : SysState) : Option SysState :=
  match s.threads.get? tid with
  | none => none
  | some t =>
    match t.phase with
    | .parkedBTeam =>
      some { s with
        queue := { s.queue with aTeamSize := s.queue.aTeamSize + 1 }
        threads := s.threads.set tid { t with phase := .atLoop } }
    | _ => none

/-- A thread that contributes nothing if removed from the thread list while
quiescent: a submitter that has fully returned, or any non-executing state
for a worker used in the shutdown precondition. -/
def Thread.quiet (t : Thread) : Bool :=
  match t.owned, t.phase with
  | some _, .done _ => true
  | some _, _ => false
  | none, .executing _ _ => false
  | none, _ => true

/-- Whether a thread's phase is `done`. -/
def Phase.isDone : Phase → Bool
  | .done _ => true
  | _ => false

/-- The first half of `halide_shutdown_thread_pool`: return immediately if
the pool is not initialized, else set `shutdown` under the mutex and
broadcast the three condition variables (broadcasts are modelled by the
wake steps).  The spec makes shutdown with outstanding jobs undefined, so
the step requires quiescence: no job on the stack, every submitter
returned, no task in flight. -/
def beginShutdownStep (s : SysState) : Option SysState :=
  if s.initialized = false then some s
  else if s.queue.jobs = [] ∧ s.threads.all Thread.quiet = true then
    some { s with queue := { s.queue with shutdown := true } }
  else none

/-- The second half of `halide_shutdown_thread_pool`: join the spawned
workers (possible once each has exited its loop), destroy the primitives
and clear the initialization latch.  Joined workers leave the thread list. -/
def joinStep (s : SysState) : Option SysState :=
  if s.initialized && s.queue.shutdown
      && s.threads.all (fun t => t.owned.isSome || t.phase.isDone) then
    some { s with
      threads := s.threads.filter (fun t => t.owned.isSome)
      initialized := false }
  else none

/-- The possible atomic transitions of the system. -/
inductive Action where
  | submit (f : Int → Int) (mn sz : Int)
  | loop (tid : Nat)
  | finish (tid : Nat)
  | ret (tid : Nat)
  | wakeOwners (tid : Nat)
  | wakeATeam (tid : Nat)
  | wakeBTeam (tid : Nat)
  | beginShutdown
  | join

/-- Apply one action. -/
def applyAction (s : SysState) (a : Action) : Option SysState :=
  match a with
  | .submit f mn sz => submitStep f mn sz s
  | .loop tid => loopStep tid s
  | .finish tid => finishStep tid s
  | .ret tid => retStep tid s
  | .wakeOwners tid => wakeOwnersStep tid s
  | .wakeATeam tid => wakeATeamStep tid s
  | .wakeBTeam tid => wakeBTeamStep tid s
  | .beginShutdown => beginShutdownStep s
  | .join => joinStep s

/-- Run a sequence of actions. -/
def run (s : SysState) (acts : List Action) : Option SysState :=
  match acts with
  | [] => some s
  | a :: rest =>
    match applyAction s a with
    | none => none
    | some s' => run s' rest

/-- A state is reachable if some interleaving of submissions, worker steps,
wakeups and shutdowns produces it from the zero-initialized process state
(under any environment). -/
def Reachable (s : SysState) : Prop :=
  ∃ p l c acts, run (initState p l c) acts = some s

/-! ### Derived observations of a state -/

/-- The index a thread contributes to the in-flight iterations of job `j`. -/
def contrib (j : JobId) (t : Thread) : Option Int :=
  match t.phase with
  | .executing j' idx => if j' = j then some idx else none
  | _ => none

/-- Indices of job `j` currently being executed by some thread. -/
def inflight (s : SysState) (j : JobId) : List Int :=
  s.threads.filterMap (contrib j)

/-- Indices of the completed task invocations of job `j`. -/
def loggedIdx (s : SysState) (j : JobId) : List Int :=
  s.log.filterMap (fun e => if e.1 = j then some e.2.1 else none)

/-- Whether a thread is a pool worker (spawned with a null `owned_job`). -/
def Thread.isWorker (t : Thread) : Bool := t.owned.isNone

/-- Number of pool workers in the thread list. -/
def workerCountN (s : SysState) : Nat :=
  s.threads.countP Thread.isWorker

/-- Whether a thread is parked on `wakeup_b_team`. -/
def Thread.isBParked (t : Thread) : Bool :=
  match t.phase with
  | .parkedBTeam => true
  | _ => false

/-- Number of threads parked on `wakeup_b_team`. -/
def bParkedN (s : SysState) : Nat :=
  s.threads.countP Thread.isBParked

/-- The integer interval `[a, b)` as a list of the given length. -/
def intRangeAux (a : Int) : Nat → List Int
  | 0 => []
  | n + 1 => a :: intRangeAux (a + 1) n

/-- The integer interval `[a, b)` as a list. -/
def intRange (a b : Int) : List Int :=
  intRangeAux a (b - a).toNat

/-! ### List helper lemmas -/

theorem getD_set_self {l : List α} {j : Nat} (x d : α) (h : j < l.length) :
    (l.set j x).getD j d = x := by
  simp [List.getD, List.getElem?_set_self', h]

theorem getD_set_ne {l : List α} {i j : Nat} (x d : α) (h : i ≠ j) :
    (l.set i x).getD j d = l.getD j d := by
  simp [List.getD, List.getElem?_set_ne h]

theorem getD_append_lt {l l' : List α} {j : Nat} (d : α) (h : j < l.length) :
    (l ++ l').getD j d = l.getD j d := by
  simp [List.getD, List.getElem?_append_left h]

theorem getD_append_len {l : List α} (x d : α) :
    (l ++ [x]).getD l.length d = x := by
  simp [List.getD]

theorem get?_eq_getD {l : List α} {j : Nat} {x : α} (d : α) (h : l.get? j = some x) :
    l.getD j d = x := by
  simp [List.getD, ← List.get?_eq_getElem?, h]

theorem counts_set {p : α → Bool} {l : List α} {i : Nat} {y : α}
    (h : l.get? i = some y) (x : α) :
    (l.set i x).countP p + (if p y then 1 else 0)
      = l.countP p + (if p x then 1 else 0) := by
  induction l generalizing i with
  | nil => simp at h
  | cons a as ih =>
    cases i with
    | zero =>
      simp only [List.get?] at h
      cases h
      simp [List.set, List.countP_cons]
      omega
    | succ n =>
      simp only [List.get?] at h
      have := ih h
      simp [List.set, List.countP_cons]
      omega

theorem filterMap_set_perm (g : α → Option β) {l : List α} {i : Nat} {y : α}
    (h : l.get? i = some y) (x : α) :
    ((l.set i x).filterMap g ++ (g y).toList).Perm (l.filterMap g ++ (g x).toList) := by
  induction l generalizing i with
  | nil => simp at h
  | cons a as ih =>
    cases i with
    | zero =>
      simp only [List.get?] at h
      cases h
      simp only [List.set, List.filterMap_cons]
      cases hgx : g x with
      | none =>
        cases hgy : g y with
        | none => simp
        | some b => simp [List.perm_append_comm]
      | some bx =>
        cases hgy : g y with
        | none =>
          simpa using (List.perm_append_singleton bx (List.filterMap g as)).symm
        | some b =>
          simp only [Option.toList]
          refine (List.Perm.cons bx (List.perm_append_singleton b (List.filterMap g as))).trans ?h
          refine (List.Perm.swap b bx (List.filterMap g as)).trans ?h2
          exact List.Perm.cons b (List.perm_append_singleton bx (List.filterMap g as)).symm
    | succ n =>
      simp only [List.get?] at h
      have := ih h
      simp only [List.set, List.filterMap_cons]
      cases hga : g a with
      | none => simpa using this
      | some b => simpa using List.Perm.cons b this

theorem intRangeAux_snoc (a : Int) (n : Nat) :
    intRangeAux a (n + 1) = intRangeAux a n ++ [a + n] := by
  induction n generalizing a with
  | zero => simp [intRangeAux]
  | succ m ih =>
    have step : intRangeAux a (m + 2) = a :: intRangeAux (a + 1) (m + 1) := rfl
    rw [step, ih (a + 1)]
    have harith : a + 1 + (m : Int) = a + ((m : Int) + 1) := by omega
    simp [intRangeAux, harith]

theorem intRange_empty {a b : Int} (h : b ≤ a) : intRange a b = [] := by
  have : (b - a).toNat = 0 := by omega
  simp [intRange, this, intRangeAux]

theorem intRange_snoc {a b : Int} (h : a ≤ b) :
    intRange a (b + 1) = intRange a b ++ [b] := by
  have h1 : (b + 1 - a).toNat = (b - a).toNat + 1 := by omega
  have h2 : a + (((b - a).toNat : Nat) : Int) = b := by omega
  rw [intRange, h1, intRangeAux_snoc, h2, intRange]

/-! ### The team-sizing invariant (spec invariant I4) -/

/-- Auxiliary facts about thread-count bookkeeping that hold in every
reachable state and entail spec invariant I4. -/
structure TeamInv (s : SysState) : Prop where
  target_nonneg : 0 ≤ s.queue.targetATeamSize
  target_le : s.queue.targetATeamSize ≤ s.numThreads
  team_sum : s.queue.aTeamSize + (bParkedN s : Int) = s.numThreads
  bparked_worker : ∀ t ∈ s.threads, t.phase = Phase.parkedBTeam → t.owned = none
  init_workers : s.initialized = true →
    (workerCountN s : Int) = s.numThreads - 1 ∧ 1 ≤ s.numThreads
  uninit_state : s.initialized = false →
    workerCountN s = 0 ∧ bParkedN s = 0 ∧ 0 ≤ s.numThreads
  num_bound : s.numThreads = 0 ∨ (1 ≤ s.numThreads ∧ s.numThreads ≤ MAX_THREADS)

theorem counts_set_eq {p : α → Bool} {l : List α} {i : Nat} {y : α}
    (h : l.get? i = some y) (x : α) (hp : p x = p y) :
    (l.set i x).countP p = l.countP p := by
  have := counts_set (p := p) h x
  rw [hp] at this
  omega

theorem clampThreads_pos (n : Int) : 1 ≤ clampThreads n := by
  simp only [clampThreads, MAX_THREADS]
  split_ifs <;> omega

theorem clampThreads_le (n : Int) : clampThreads n ≤ MAX_THREADS := by
  simp only [clampThreads, MAX_THREADS]
  split_ifs <;> omega

theorem computeNumThreads_pos (cur : Int) (p l : Option Int) (c : Int) :
    1 ≤ computeNumThreads cur p l c :=
  clampThreads_pos _

theorem computeNumThreads_le (cur : Int) (p l : Option Int) (c : Int) :
    computeNumThreads cur p l c ≤ MAX_THREADS :=
  clampThreads_le _

theorem teamInv_initState (p l : Option Int) (c : Int) : TeamInv (initState p l c) := by
  constructor <;> simp [initState, bParkedN, workerCountN]

/-- `TeamInv` only looks at these components of the state. -/
theorem teamInv_ext {s : SysState} (hs : TeamInv s) (s' : SysState)
    (ha : s'.queue.aTeamSize = s.queue.aTeamSize)
    (hg : s'.queue.targetATeamSize = s.queue.targetATeamSize)
    (hth : s'.threads = s.threads)
    (hn : s'.numThreads = s.numThreads)
    (hi : s'.initialized = s.initialized) : TeamInv s' := by
  constructor
  · rw [hg]; exact hs.target_nonneg
  · rw [hg, hn]; exact hs.target_le
  · rw [ha, hn]; unfold bParkedN; rw [hth]; exact hs.team_sum
  · rw [hth]; exact hs.bparked_worker
  · rw [hi, hn]; unfold workerCountN; rw [hth]; exact hs.init_workers
  · rw [hi, hn]; unfold workerCountN bParkedN; rw [hth]; exact hs.uninit_state
  · rw [hn]; exact hs.num_bound

/-- Swapping one thread's phase for another phase with the same B-parked
status preserves `TeamInv`. -/
theorem teamInv_phase_swap {s : SysState} (hs : TeamInv s) {tid : Nat} {t : Thread}
    (hget : s.threads.get? tid = some t) (ph : Phase)
    (hpb : Thread.isBParked { t with phase := ph } = Thread.isBParked t)
    (s' : SysState)
    (ha : s'.queue.aTeamSize = s.queue.aTeamSize)
    (hg : s'.queue.targetATeamSize = s.queue.targetATeamSize)
    (hth : s'.threads = s.threads.set tid { t with phase := ph })
    (hn : s'.numThreads = s.numThreads)
    (hi : s'.initialized = s.initialized) : TeamInv s' := by
  have hb : (s.threads.set tid { t with phase := ph }).countP Thread.isBParked
      = s.threads.countP Thread.isBParked := counts_set_eq hget _ hpb
  have hw : (s.threads.set tid { t with phase := ph }).countP Thread.isWorker
      = s.threads.countP Thread.isWorker := counts_set_eq hget _ rfl
  constructor
  · rw [hg]; exact hs.target_nonneg
  · rw [hg, hn]; exact hs.target_le
  · rw [ha, hn]; unfold bParkedN; rw [hth, hb]; exact hs.team_sum
  · rw [hth]
    intro u hu hup
    rcases List.mem_or_eq_of_mem_set hu with hmem | rfl
    · exact hs.bparked_worker u hmem hup
    · show t.owned = none
      have hph : ph = Phase.parkedBTeam := hup
      have : Thread.isBParked { t with phase := ph } = true := by
        simp [Thread.isBParked, hph]
      rw [hpb] at this
      have ht : t.phase = Phase.parkedBTeam := by
        revert this
        unfold Thread.isBParked
        split <;> simp_all
      exact hs.bparked_worker t (List.get?_mem hget) ht
  · rw [hi, hn]; unfold workerCountN; rw [hth, hw]; exact hs.init_workers
  · rw [hi, hn]; unfold workerCountN bParkedN; rw [hth, hw, hb]; exact hs.uninit_state
  · rw [hn]; exact hs.num_bound


theorem teamInv_finishStep {s s' : SysState} {tid : Nat} (hs : TeamInv s)
    (h : finishStep tid s = some s') : TeamInv s' := by
  unfold finishStep at h
  cases hget : s.threads.get? tid with
  | none => rw [hget] at h; exact Option.noConfusion h
  | some t =>
    rw [hget] at h
    cases hph : t.phase
    case executing j idx =>
      simp only [hph] at h
      injection h with h
      subst h
      exact teamInv_phase_swap hs hget .atLoop (by simp [Thread.isBParked, hph]) _
        rfl rfl rfl rfl rfl
    all_goals (simp only [hph] at h; exact Option.noConfusion h)

theorem teamInv_retStep {s s' : SysState} {tid : Nat} (hs : TeamInv s)
    (h : retStep tid s = some s') : TeamInv s' := by
  unfold retStep at h
  cases hget : s.threads.get? tid with
  | none => rw [hget] at h; exact Option.noConfusion h
  | some t =>
    rw [hget] at h
    cases how : t.owned with
    | none => simp only [how] at h; exact Option.noConfusion h
    | some j =>
      cases hph : t.phase
      case returning =>
        simp only [how, hph] at h
        injection h with h
        subst h
        refine teamInv_phase_swap hs hget
          (.done (s.works.getD j default).exitStatus)
          (by simp [Thread.isBParked, hph]) _ rfl rfl ?hth rfl rfl
        rw [how]
      all_goals (simp only [how, hph] at h; exact Option.noConfusion h)

theorem teamInv_wakeOwnersStep {s s' : SysState} {tid : Nat} (hs : TeamInv s)
    (h : wakeOwnersStep tid s = some s') : TeamInv s' := by
  unfold wakeOwnersStep at h
  cases hget : s.threads.get? tid with
  | none => rw [hget] at h; exact Option.noConfusion h
  | some t =>
    rw [hget] at h
    cases hph : t.phase
    case parkedOwners =>
      simp only [hph] at h
      injection h with h
      subst h
      exact teamInv_phase_swap hs hget .atLoop (by simp [Thread.isBParked, hph]) _
        rfl rfl rfl rfl rfl
    all_goals (simp only [hph] at h; exact Option.noConfusion h)

theorem teamInv_wakeATeamStep {s s' : SysState} {tid : Nat} (hs : TeamInv s)
    (h : wakeATeamStep tid s = some s') : TeamInv s' := by
  unfold wakeATeamStep at h
  cases hget : s.threads.get? tid with
  | none => rw [hget] at h; exact Option.noConfusion h
  | some t =>
    rw [hget] at h
    cases hph : t.phase
    case parkedATeam =>
      simp only [hph] at h
      injection h with h
      subst h
      exact teamInv_phase_swap hs hget .atLoop (by simp [Thread.isBParked, hph]) _
        rfl rfl rfl rfl rfl
    all_goals (simp only [hph] at h; exact Option.noConfusion h)

theorem teamInv_wakeBTeamStep {s s' : SysState} {tid : Nat} (hs : TeamInv s)
    (h : wakeBTeamStep tid s = some s') : TeamInv s' := by
  unfold wakeBTeamStep at h
  cases hget : s.threads.get? tid with
  | none => rw [hget] at h; exact Option.noConfusion h
  | some t =>
    rw [hget] at h
    cases hph : t.phase
    case parkedBTeam =>
      simp only [hph] at h
      injection h with h
      subst h
      have hcount := counts_set (p := Thread.isBParked) hget { t with phase := .atLoop }
      rw [show Thread.isBParked t = true by simp [Thread.isBParked, hph],
          show Thread.isBParked { t with phase := Phase.atLoop } = false by
            simp [Thread.isBParked]] at hcount
      simp only [if_true, if_false] at hcount
      have hwc : (s.threads.set tid { t with phase := Phase.atLoop }).countP Thread.isWorker
          = s.threads.countP Thread.isWorker := counts_set_eq hget _ rfl
      have htb : t ∈ s.threads := List.get?_mem hget
      constructor
      · exact hs.target_nonneg
      · exact hs.target_le
      · have hsum := hs.team_sum
        simp at hcount
        unfold bParkedN at hsum ⊢
        dsimp only
        omega
      · intro u hu hup
        rcases List.mem_or_eq_of_mem_set hu with hmem | rfl
        · exact hs.bparked_worker u hmem hup
        · exact absurd (show Phase.atLoop = Phase.parkedBTeam from hup) (by simp)
      · intro hi
        have := hs.init_workers hi
        unfold workerCountN at this ⊢
        dsimp only
        rw [hwc]
        exact this
      · intro hi
        obtain ⟨h1, h2, h3⟩ := hs.uninit_state hi

        exfalso
        have : ∀ u ∈ s.threads, ¬Thread.isBParked u = true :=
          List.countP_eq_zero.mp h2
        exact this t htb (by simp [Thread.isBParked, hph])
      · exact hs.num_bound
    all_goals (simp only [hph] at h; exact Option.noConfusion h)


theorem teamInv_phase_swap2 {s : SysState} (hs : TeamInv s) {tid : Nat} {t : Thread}
    {ow : Option JobId} (hget : s.threads.get? tid = some t) (how : t.owned = ow)
    (ph : Phase) (hpb : Thread.isBParked ⟨ow, ph⟩ = Thread.isBParked t)
    (s' : SysState)
    (ha : s'.queue.aTeamSize = s.queue.aTeamSize)
    (hg : s'.queue.targetATeamSize = s.queue.targetATeamSize)
    (hth : s'.threads = s.threads.set tid ⟨ow, ph⟩)
    (hn : s'.numThreads = s.numThreads)
    (hi : s'.initialized = s.initialized) : TeamInv s' := by
  refine teamInv_phase_swap hs hget ph ?pb s' ha hg ?th hn hi
  · rw [how]; exact hpb
  · rw [how]; exact hth

theorem teamInv_loopStep {s s' : SysState} {tid : Nat} (hs : TeamInv s)
    (h : loopStep tid s = some s') : TeamInv s' := by
  unfold loopStep at h
  cases hget : s.threads.get? tid with
  | none => rw [hget] at h; exact Option.noConfusion h
  | some t =>
    rw [hget] at h
    have htmem : t ∈ s.threads := List.get?_mem hget
    cases hph : t.phase
    case atLoop =>
      simp only [hph] at h
      cases how : t.owned with
      | some oj =>
        simp only [how] at h
        by_cases hrun : (s.works.getD oj default).running = true
        · rw [if_pos hrun] at h
          cases hjobs : s.queue.jobs with
          | nil =>
            simp only [hjobs] at h
            injection h with h
            subst h
            exact teamInv_phase_swap2 hs hget how .parkedOwners
              (by simp [Thread.isBParked, hph]) _ rfl rfl rfl rfl rfl
          | cons j rest =>
            simp only [hjobs] at h
            injection h with h
            subst h
            exact teamInv_phase_swap2 hs hget how (.executing j _)
              (by simp [Thread.isBParked, hph]) _ rfl rfl rfl rfl rfl
        · rw [if_neg hrun] at h
          injection h with h
          subst h
          exact teamInv_phase_swap2 hs hget how .returning
            (by simp [Thread.isBParked, hph]) _ rfl rfl rfl rfl rfl
      | none =>
        simp only [how] at h
        by_cases hrun : s.queue.running = true
        · rw [if_pos hrun] at h
          cases hjobs : s.queue.jobs with
          | nil =>
            simp only [hjobs] at h
            by_cases hteam : s.queue.aTeamSize ≤ s.queue.targetATeamSize
            · rw [if_pos hteam] at h
              injection h with h
              subst h
              exact teamInv_phase_swap2 hs hget how .parkedATeam
                (by simp [Thread.isBParked, hph]) _ rfl rfl rfl rfl rfl
            · rw [if_neg hteam] at h
              injection h with h
              subst h
              have hcount := counts_set (p := Thread.isBParked) hget
                { t with phase := .parkedBTeam }
              rw [show Thread.isBParked t = false by simp [Thread.isBParked, hph],
                  show Thread.isBParked { t with phase := Phase.parkedBTeam } = true by
                    simp [Thread.isBParked]] at hcount
              simp at hcount
              have hwc : (s.threads.set tid { t with phase := Phase.parkedBTeam }).countP
                  Thread.isWorker = s.threads.countP Thread.isWorker :=
                counts_set_eq hget _ rfl
              constructor
              · exact hs.target_nonneg
              · exact hs.target_le
              · have hsum := hs.team_sum
                unfold bParkedN at hsum ⊢
                dsimp only
                rw [how] at *
                omega
              · intro u hu hup
                rcases List.mem_or_eq_of_mem_set hu with hmem | rfl
                · exact hs.bparked_worker u hmem hup
                · rfl
              · intro hi
                have := hs.init_workers hi
                unfold workerCountN at this ⊢
                dsimp only
                rw [how] at *
                rw [hwc]
                exact this
              · intro hi
                obtain ⟨h1, h2, h3⟩ := hs.uninit_state hi
                exfalso
                have hnone : ∀ u ∈ s.threads, ¬Thread.isWorker u = true :=
                  List.countP_eq_zero.mp h1
                exact hnone t htmem (by simp [Thread.isWorker, how])
              · exact hs.num_bound
          | cons j rest =>
            simp only [hjobs] at h
            injection h with h
            subst h
            exact teamInv_phase_swap2 hs hget how (.executing j _)
              (by simp [Thread.isBParked, hph]) _ rfl rfl rfl rfl rfl
        · rw [if_neg hrun] at h
          injection h with h
          subst h
          exact teamInv_phase_swap2 hs hget how (.done 0)
            (by simp [Thread.isBParked, hph]) _ rfl rfl rfl rfl rfl
    all_goals (simp only [hph] at h; exact Option.noConfusion h)


theorem lazyInit_initialized (s : SysState) : (lazyInit s).initialized = true := by
  unfold lazyInit
  split
  next h => exact h
  next => rfl

theorem lazyInit_of_initialized {s : SysState} (h : s.initialized = true) :
    lazyInit s = s := by
  unfold lazyInit
  rw [if_pos h]

/-- `lazyInit` establishes `TeamInv` together with the facts the push step
needs about the resulting state. -/
theorem teamInv_lazyInit {s : SysState} (hs : TeamInv s) :
    TeamInv (lazyInit s) ∧ 1 ≤ (lazyInit s).numThreads ∧
      (lazyInit s).numThreads ≤ MAX_THREADS ∧
      (workerCountN (lazyInit s) : Int) = (lazyInit s).numThreads - 1 := by
  by_cases hinit : s.initialized = true
  · rw [lazyInit_of_initialized hinit]
    obtain ⟨hwc, hnt⟩ := hs.init_workers hinit
    refine ⟨hs, hnt, ?le, hwc⟩
    rcases hs.num_bound with h0 | ⟨_, hle⟩
    · omega
    · exact hle
  · have hinit' : s.initialized = false := by
      revert hinit; cases s.initialized <;> simp
    obtain ⟨hwc0, hbp0, hnt0⟩ := hs.uninit_state hinit'
    unfold lazyInit
    rw [if_neg hinit]
    set nt := computeNumThreads s.numThreads s.envPrimary s.envLegacy s.cpuCount with hntd
    have hpos : 1 ≤ nt := computeNumThreads_pos _ _ _ _
    have hle : nt ≤ MAX_THREADS := computeNumThreads_le _ _ _ _
    refine ⟨?inv, hpos, hle, ?wc⟩
    case wc =>
      unfold workerCountN at hwc0 ⊢
      dsimp only
      rw [List.countP_append, List.countP_replicate]
      simp only [Thread.isWorker, Option.isNone_some, Option.isNone_none, if_pos]
      push_cast
      omega
    case inv =>
      have htgt0 : s.queue.targetATeamSize ≤ nt := by
        have h1 := hs.target_le
        have h2 := hs.target_nonneg
        rcases hs.num_bound with h0 | ⟨hge, hle64⟩
        · omega
        · have : nt = s.numThreads := by
            rw [hntd]
            unfold computeNumThreads clampThreads
            rw [if_neg (by omega)]
            rw [if_neg (by omega), if_neg (by omega)]
          omega
      constructor
      · exact hs.target_nonneg
      · exact htgt0
      · unfold bParkedN at hbp0 ⊢
        dsimp only
        rw [List.countP_append, List.countP_replicate,
          show Thread.isBParked ⟨none, .atLoop⟩ = false from rfl]
        simp only [Bool.false_eq_true, if_false, Nat.add_zero]
        omega
      · dsimp only
        intro u hu hup
        rcases List.mem_append.mp hu with hmem | hrep
        · exact hs.bparked_worker u hmem hup
        · rw [List.eq_of_mem_replicate hrep] at hup
          exact absurd hup (by simp)
      · intro _
        unfold workerCountN at hwc0 ⊢
        dsimp only
        rw [List.countP_append, List.countP_replicate]
        simp only [Thread.isWorker, Option.isNone_none, if_pos]
        push_cast
        omega
      · intro hbad
        exact Bool.noConfusion hbad
      · right
        exact ⟨hpos, hle⟩

theorem teamInv_submitStep {s s' : SysState} {f : Int → Int} {mn sz : Int} (hs : TeamInv s)
    (h : submitStep f mn sz s = some s') : TeamInv s' := by
  unfold submitStep at h
  by_cases hsz : sz < 0
  · rw [if_pos hsz] at h; exact Option.noConfusion h
  rw [if_neg hsz] at h
  by_cases hsd : (s.initialized && s.queue.shutdown) = true
  · rw [if_pos hsd] at h; exact Option.noConfusion h
  rw [if_neg hsd] at h
  simp only [] at h
  injection h with h
  subst h
  obtain ⟨h1, hpos, hle, hwc⟩ := teamInv_lazyInit hs
  set s1 := lazyInit s with hs1
  constructor
  · dsimp only
    split
    · omega
    · omega
  · dsimp only
    split
    next hc => exact le_of_lt hc.2
    next => exact le_refl _
  · have hsum := h1.team_sum
    unfold bParkedN at hsum ⊢
    dsimp only
    rw [List.countP_append]
    simp only [List.countP_cons, List.countP_nil,
      show Thread.isBParked ⟨some (lazyInit s).works.length, .atLoop⟩ = false from rfl]
    simp only [Bool.false_eq_true, if_false, Nat.zero_add, Nat.add_zero]
    omega
  · dsimp only
    intro u hu hup
    rcases List.mem_append.mp hu with hmem | hone
    · exact h1.bparked_worker u hmem hup
    · simp only [List.mem_singleton] at hone
      rw [hone] at hup
      exact absurd hup (by simp)
  · intro _
    refine ⟨?wc2, hpos⟩
    case wc2 =>
      unfold workerCountN at hwc ⊢
      dsimp only
      rw [List.countP_append]
      simp only [List.countP_cons, List.countP_nil]
      simp only [Thread.isWorker, Option.isNone_some]
      push_cast
      omega
  · intro hbad
    have hi2 := lazyInit_initialized s
    rw [← hs1] at hi2
    dsimp only at hbad
    rw [hi2] at hbad
    exact Bool.noConfusion hbad
  · right
    exact ⟨hpos, hle⟩

theorem teamInv_beginShutdownStep {s s' : SysState} (hs : TeamInv s)
    (h : beginShutdownStep s = some s') : TeamInv s' := by
  unfold beginShutdownStep at h
  by_cases hinit : s.initialized = false
  · rw [if_pos hinit] at h
    injection h with h
    subst h
    exact hs
  · rw [if_neg hinit] at h
    by_cases hq : s.queue.jobs = [] ∧ s.threads.all Thread.quiet = true
    · rw [if_pos hq] at h
      injection h with h
      subst h
      exact teamInv_ext hs _ rfl rfl rfl rfl rfl
    · rw [if_neg hq] at h
      exact Option.noConfusion h

theorem teamInv_joinStep {s s' : SysState} (hs : TeamInv s)
    (h : joinStep s = some s') : TeamInv s' := by
  unfold joinStep at h
  by_cases hc : (s.initialized && s.queue.shutdown
      && s.threads.all (fun t => t.owned.isSome || t.phase.isDone)) = true
  · rw [if_pos hc] at h
    injection h with h
    subst h
    simp only [Bool.and_eq_true, List.all_eq_true] at hc
    obtain ⟨⟨hinit, _⟩, hall⟩ := hc
    have hbp0 : bParkedN s = 0 := by
      unfold bParkedN
      rw [List.countP_eq_zero]
      intro u hu hup
      have how : u.owned = none := hs.bparked_worker u hu (by
        revert hup
        unfold Thread.isBParked
        split <;> simp_all)
      have := hall u hu
      rw [how] at this
      simp only [Option.isSome_none, Bool.false_or] at this
      revert this hup
      unfold Phase.isDone Thread.isBParked
      split <;> simp_all
    have hnt1 : 1 ≤ s.numThreads := (hs.init_workers hinit).2
    constructor
    · exact hs.target_nonneg
    · exact hs.target_le
    · have hsum := hs.team_sum
      unfold bParkedN at hsum ⊢
      dsimp only
      have : (s.threads.filter (fun t => t.owned.isSome)).countP Thread.isBParked = 0 := by
        rw [List.countP_eq_zero]
        intro u hu hup
        have hu' := (List.mem_filter.mp hu).1
        have : bParkedN s = 0 := hbp0
        unfold bParkedN at this
        exact absurd hup (by
          have := List.countP_eq_zero.mp this u hu'
          simpa using this)
      rw [this]
      unfold bParkedN at hbp0
      omega
    · dsimp only
      intro u hu hup
      exact hs.bparked_worker u (List.mem_filter.mp hu).1 hup
    · intro hbad
      exact Bool.noConfusion hbad
    · intro _
      refine ⟨?wc, ?bp, by dsimp only; omega⟩
      case wc =>
        unfold workerCountN
        dsimp only
        rw [List.countP_eq_zero]
        intro u hu
        have h2 := (List.mem_filter.mp hu).2
        unfold Thread.isWorker
        simp only [Bool.not_eq_true, Option.isNone_eq_false_iff]
        exact h2
      case bp =>
        unfold bParkedN
        dsimp only
        rw [List.countP_eq_zero]
        intro u hu hup
        have hu' := (List.mem_filter.mp hu).1
        unfold bParkedN at hbp0
        exact absurd hup (by
          have := List.countP_eq_zero.mp hbp0 u hu'
          simpa using this)
    · dsimp only
      exact hs.num_bound
  · rw [if_neg hc] at h
    exact Option.noConfusion h

/-- `TeamInv` is preserved by every action. -/
theorem teamInv_applyAction {s s' : SysState} {a : Action} (hs : TeamInv s)
    (h : applyAction s a = some s') : TeamInv s' := by
  cases a with
  | submit f mn sz => exact teamInv_submitStep hs h
  | loop tid => exact teamInv_loopStep hs h
  | finish tid => exact teamInv_finishStep hs h
  | ret tid => exact teamInv_retStep hs h
  | wakeOwners tid => exact teamInv_wakeOwnersStep hs h
  | wakeATeam tid => exact teamInv_wakeATeamStep hs h
  | wakeBTeam tid => exact teamInv_wakeBTeamStep hs h
  | beginShutdown => exact teamInv_beginShutdownStep hs h
  | join => exact teamInv_joinStep hs h

theorem teamInv_run {s s' : SysState} {acts : List Action} (hs : TeamInv s)
    (h : run s acts = some s') : TeamInv s' := by
  induction acts generalizing s with
  | nil =>
    unfold run at h
    injection h with h
    subst h
    exact hs
  | cons a rest ih =>
    unfold run at h
    cases happ : applyAction s a with
    | none => rw [happ] at h; exact Option.noConfusion h
    | some s1 =>
      rw [happ] at h
      exact ih (teamInv_applyAction hs happ) h

/-- Every reachable state satisfies `TeamInv`. -/
theorem teamInv_reachable {s : SysState} (hs : Reachable s) : TeamInv s := by
  obtain ⟨p, l, c, acts, hrun⟩ := hs
  exact teamInv_run (teamInv_initState p l c) hrun


/-! ### The job-stack invariant -/

/-- Facts about the job stack, the iteration cursors, the in-flight and
logged invocations, and finished submitters, holding in every reachable
state. -/
structure JobInv (s : SysState) : Prop where
  jobs_lt : ∀ j ∈ s.queue.jobs, j < s.works.length
  jobs_nodup : s.queue.jobs.Nodup
  exec_lt : ∀ t ∈ s.threads, ∀ j idx, t.phase = Phase.executing j idx → j < s.works.length
  min_le_next : ∀ j, j < s.works.length →
    (s.works.getD j default).min0 ≤ (s.works.getD j default).next
  min_le_max : ∀ j, j < s.works.length →
    (s.works.getD j default).min0 ≤ (s.works.getD j default).max
  nonempty_stack : ∀ j, j < s.works.length →
    (s.works.getD j default).min0 < (s.works.getD j default).max →
    (s.works.getD j default).next ≤ (s.works.getD j default).max ∧
      ((s.works.getD j default).next < (s.works.getD j default).max ↔ j ∈ s.queue.jobs)
  active_eq : ∀ j, j < s.works.length →
    (s.works.getD j default).activeWorkers = ((inflight s j).length : Int)
  claims_perm : ∀ j, j < s.works.length →
    (inflight s j ++ loggedIdx s j).Perm
      (intRange (s.works.getD j default).min0 (s.works.getD j default).next)
  log_lt : ∀ e ∈ s.log, e.1 < s.works.length
  log_status : ∀ e ∈ s.log, e.2.2 = (s.works.getD e.1 default).f e.2.1
  exit_logged : ∀ j, j < s.works.length → (s.works.getD j default).exitStatus ≠ 0 →
    ∃ i, (j, i, (s.works.getD j default).exitStatus) ∈ s.log
  fail_exit : ∀ j, j < s.works.length → ∀ i st, (j, i, st) ∈ s.log → st ≠ 0 →
    (s.works.getD j default).exitStatus ≠ 0
  owner_fin : ∀ t ∈ s.threads, ∀ j, t.owned = some j →
    (t.phase = Phase.returning ∨ ∃ r, t.phase = Phase.done r) →
    ((s.works.getD j default).min0 < (s.works.getD j default).max →
      (s.works.getD j default).next = (s.works.getD j default).max ∧
      (s.works.getD j default).activeWorkers = 0 ∧
      ∀ r, t.phase = Phase.done r → (s.works.getD j default).exitStatus = r)
  uninit_jobs : s.initialized = false → s.queue.jobs = []
  shutdown_jobs : s.queue.shutdown = true → s.queue.jobs = []
  owned_lt : ∀ t ∈ s.threads, ∀ j, t.owned = some j → j < s.works.length

theorem jobInv_initState (p l : Option Int) (c : Int) : JobInv (initState p l c) := by
  constructor <;> simp [initState, inflight, loggedIdx]

theorem filterMap_filter_eq (g : α → Option β) (p : α → Bool) (l : List α)
    (h : ∀ a ∈ l, p a = false → g a = none) :
    (l.filter p).filterMap g = l.filterMap g := by
  induction l with
  | nil => rfl
  | cons a as ih =>
    have ih' := ih (fun b hb => h b (List.mem_cons_of_mem a hb))
    cases hpa : p a with
    | true => simp [List.filter, hpa, List.filterMap_cons, ih']
    | false =>
      have := h a (List.mem_cons_self a as) hpa
      simp [List.filter, hpa, List.filterMap_cons, this, ih']

/-- Replacing one thread by another thread with the same `owned` field that
contributes no in-flight iteration (neither did the old one), and that
satisfies the finished-owner condition, preserves `JobInv` as long as
nothing else changes. -/
theorem jobInv_phase_swap {s : SysState} (hs : JobInv s) {tid : Nat} {t : Thread}
    (hget : s.threads.get? tid = some t) (t' : Thread)
    (hown : t'.owned = t.owned)
    (hc0 : ∀ j, contrib j t = none)
    (hc1 : ∀ j, contrib j t' = none)
    (hfin : ∀ j, t'.owned = some j →
      (t'.phase = Phase.returning ∨ ∃ r, t'.phase = Phase.done r) →
      ((s.works.getD j default).min0 < (s.works.getD j default).max →
        (s.works.getD j default).next = (s.works.getD j default).max ∧
        (s.works.getD j default).activeWorkers = 0 ∧
        ∀ r, t'.phase = Phase.done r → (s.works.getD j default).exitStatus = r))
    (s' : SysState)
    (hjobs : s'.queue.jobs = s.queue.jobs)
    (hworks : s'.works = s.works)
    (hlog : s'.log = s.log)
    (hsd : s'.queue.shutdown = s.queue.shutdown)
    (hinit : s'.initialized = s.initialized)
    (hth : s'.threads = s.threads.set tid t') : JobInv s' := by
  have hperm : ∀ j, (inflight s' j).Perm (inflight s j) := by
    intro j
    have := filterMap_set_perm (contrib j) hget t'
    rw [hc0 j, hc1 j] at this
    simp only [Option.toList_none, List.append_nil] at this
    unfold inflight
    rw [hth]
    exact this
  have hlogidx : ∀ j, loggedIdx s' j = loggedIdx s j := by
    intro j; unfold loggedIdx; rw [hlog]
  constructor
  · rw [hjobs, hworks]; exact hs.jobs_lt
  · rw [hjobs]; exact hs.jobs_nodup
  · rw [hth, hworks]
    intro u hu j idx hph
    rcases List.mem_or_eq_of_mem_set hu with hmem | rfl
    · exact hs.exec_lt u hmem j idx hph
    · exact absurd (hc1 j) (by simp [contrib, hph])
  · rw [hworks]; exact hs.min_le_next
  · rw [hworks]; exact hs.min_le_max
  · rw [hworks, hjobs]; exact hs.nonempty_stack
  · rw [hworks]
    intro j hj
    rw [(hperm j).length_eq]
    exact hs.active_eq j hj
  · rw [hworks]
    intro j hj
    rw [hlogidx j]
    exact ((hperm j).append_right _).trans (hs.claims_perm j hj)
  · rw [hlog, hworks]; exact hs.log_lt
  · rw [hlog, hworks]; exact hs.log_status
  · rw [hworks, hlog]; exact hs.exit_logged
  · rw [hworks, hlog]; exact hs.fail_exit
  · rw [hth, hworks]
    intro u hu j hun hph
    rcases List.mem_or_eq_of_mem_set hu with hmem | rfl
    · exact hs.owner_fin u hmem j hun hph
    · exact hfin j hun hph
  · rw [hinit, hjobs]; exact hs.uninit_jobs
  · rw [hsd, hjobs]; exact hs.shutdown_jobs
  · rw [hth, hworks]
    intro u hu j hun
    rcases List.mem_or_eq_of_mem_set hu with hmem | rfl
    · exact hs.owned_lt u hmem j hun
    · rw [hown] at hun
      exact hs.owned_lt t (List.get?_mem hget) j hun


theorem jobInv_claimStep {s : SysState} (hs : JobInv s) {tid : Nat} {t : Thread}
    (hget : s.threads.get? tid = some t)
    (hc0 : ∀ j, contrib j t = none)
    {j0 : JobId} {rest : List JobId} (hjobs : s.queue.jobs = j0 :: rest)
    {ow : Option JobId} (hown : ow = t.owned)
    (s' : SysState)
    (hq : s'.queue.jobs =
      (if (s.works.getD j0 default).next + 1 = (s.works.getD j0 default).max then rest
        else s.queue.jobs))
    (hworks : s'.works = s.works.set j0
      { s.works.getD j0 default with
        next := (s.works.getD j0 default).next + 1
        activeWorkers := (s.works.getD j0 default).activeWorkers + 1 })
    (hth : s'.threads = s.threads.set tid
      ⟨ow, .executing j0 (s.works.getD j0 default).next⟩)
    (hlog : s'.log = s.log)
    (hsd : s'.queue.shutdown = s.queue.shutdown)
    (hinit : s'.initialized = s.initialized) : JobInv s' := by
  have hj0mem : j0 ∈ s.queue.jobs := by rw [hjobs]; exact List.mem_cons_self _ _
  have hj0lt : j0 < s.works.length := hs.jobs_lt j0 hj0mem
  have hj0notrest : j0 ∉ rest := (List.nodup_cons.mp (hjobs ▸ hs.jobs_nodup)).1
  have hlen : s'.works.length = s.works.length := by rw [hworks, List.length_set]
  have hgd_self : s'.works.getD j0 default =
      { s.works.getD j0 default with
        next := (s.works.getD j0 default).next + 1
        activeWorkers := (s.works.getD j0 default).activeWorkers + 1 } := by
    rw [hworks]; exact getD_set_self _ _ hj0lt
  have hgd_ne : ∀ j, j ≠ j0 → s'.works.getD j default = s.works.getD j default := by
    intro j hne
    rw [hworks]; exact getD_set_ne _ _ (fun hcc => hne hcc.symm)
  have hcon1 : ∀ j, j ≠ j0 →
      contrib j (⟨ow, .executing j0 (s.works.getD j0 default).next⟩ : Thread) = none := by
    intro j hne
    simp only [contrib]
    rw [if_neg (fun hcc => hne hcc.symm)]
  have hcon1self :
      contrib j0 (⟨ow, .executing j0 (s.works.getD j0 default).next⟩ : Thread)
        = some (s.works.getD j0 default).next := by
    simp [contrib]
  have hperm_ne : ∀ j, j ≠ j0 → (inflight s' j).Perm (inflight s j) := by
    intro j hne
    have := filterMap_set_perm (contrib j) hget
      (⟨ow, .executing j0 (s.works.getD j0 default).next⟩ : Thread)
    rw [hc0 j, hcon1 j hne] at this
    simp only [Option.toList_none, List.append_nil] at this
    unfold inflight
    rw [hth]
    exact this
  have hperm_self :
      (inflight s' j0).Perm (inflight s j0 ++ [(s.works.getD j0 default).next]) := by
    have := filterMap_set_perm (contrib j0) hget
      (⟨ow, .executing j0 (s.works.getD j0 default).next⟩ : Thread)
    rw [hc0 j0, hcon1self] at this
    simp only [Option.toList_none, Option.toList_some, List.append_nil] at this
    unfold inflight
    rw [hth]
    exact this
  have hlogidx : ∀ j, loggedIdx s' j = loggedIdx s j := by
    intro j; unfold loggedIdx; rw [hlog]
  have hmem' : ∀ j : JobId, j ∈ s'.queue.jobs ↔
      (j ∈ s.queue.jobs ∧ (j = j0 →
        (s.works.getD j0 default).next + 1 ≠ (s.works.getD j0 default).max)) := by
    intro j
    rw [hq]
    split
    next hmx =>
      rw [hjobs]
      constructor
      · intro hj
        refine ⟨List.mem_cons_of_mem _ hj, ?h2⟩
        intro hjj
        subst hjj
        exact absurd hj hj0notrest
      · rintro ⟨hj, hcond⟩
        rcases List.mem_cons.mp hj with rfl | hj2
        · exact absurd hmx (hcond rfl)
        · exact hj2
    next hmx =>
      constructor
      · intro hj; exact ⟨hj, fun _ => hmx⟩
      · exact fun hc => hc.1
  constructor
  · intro j hj
    rw [hlen]
    exact hs.jobs_lt j ((hmem' j).mp hj).1
  · rw [hq]
    split
    · exact (List.nodup_cons.mp (hjobs ▸ hs.jobs_nodup)).2
    · exact hs.jobs_nodup
  · rw [hth, hlen]
    intro u hu j idx hph
    rcases List.mem_or_eq_of_mem_set hu with hmem | rfl
    · exact hs.exec_lt u hmem j idx hph
    · have hph' : Phase.executing j0 (s.works.getD j0 default).next
          = Phase.executing j idx := hph
      cases hph'
      exact hj0lt
  · intro j hj
    rw [hlen] at hj
    by_cases hjj : j = j0
    · subst hjj
      rw [hgd_self]
      have := hs.min_le_next j hj
      dsimp only
      omega
    · rw [hgd_ne j hjj]
      exact hs.min_le_next j hj
  · intro j hj
    rw [hlen] at hj
    by_cases hjj : j = j0
    · subst hjj
      rw [hgd_self]
      exact hs.min_le_max j hj
    · rw [hgd_ne j hjj]
      exact hs.min_le_max j hj
  · intro j hj hne
    rw [hlen] at hj
    by_cases hjj : j = j0
    · subst hjj
      rw [hgd_self] at hne ⊢
      dsimp only at hne ⊢
      obtain ⟨hle, hiff⟩ := hs.nonempty_stack j hj hne
      have hlt : (s.works.getD j default).next < (s.works.getD j default).max :=
        hiff.mpr hj0mem
      constructor
      · omega
      · rw [hmem' j]
        constructor
        · intro hlt2
          exact ⟨hj0mem, fun _ => by omega⟩
        · rintro ⟨-, hcond⟩
          have := hcond rfl
          omega
    · rw [hgd_ne j hjj] at hne ⊢
      obtain ⟨hle, hiff⟩ := hs.nonempty_stack j hj hne
      constructor
      · exact hle
      · rw [hmem' j]
        constructor
        · intro hlt2
          exact ⟨hiff.mp hlt2, fun hc => absurd hc hjj⟩
        · rintro ⟨hmem, -⟩
          exact hiff.mpr hmem
  · intro j hj
    rw [hlen] at hj
    by_cases hjj : j = j0
    · subst hjj
      rw [hgd_self]
      dsimp only
      have hlact := hs.active_eq j hj
      have hl := hperm_self.length_eq
      simp only [List.length_append, List.length_cons, List.length_nil] at hl
      rw [hl]
      push_cast
      omega
    · rw [hgd_ne j hjj, (hperm_ne j hjj).length_eq]
      exact hs.active_eq j hj
  · intro j hj
    rw [hlen] at hj
    by_cases hjj : j = j0
    · subst hjj
      rw [hgd_self, hlogidx j]
      dsimp only
      have hmn := hs.min_le_next j hj
      rw [intRange_snoc hmn]
      refine (hperm_self.append_right _).trans ?step
      refine List.Perm.trans ?shuffle ((hs.claims_perm j hj).append_right _)
      rw [List.append_assoc, List.append_assoc]
      exact List.Perm.append_left _ List.perm_append_comm
    · rw [hgd_ne j hjj, hlogidx j]
      exact ((hperm_ne j hjj).append_right _).trans (hs.claims_perm j hj)
  · rw [hlog]
    intro e he
    rw [hlen]
    exact hs.log_lt e he
  · rw [hlog]
    intro e he
    by_cases hjj : e.1 = j0
    · rw [hjj, hgd_self]
      dsimp only
      have := hs.log_status e he
      rw [hjj] at this
      exact this
    · rw [hgd_ne e.1 hjj]
      exact hs.log_status e he
  · intro j hj
    rw [hlen] at hj
    rw [hlog]
    by_cases hjj : j = j0
    · subst hjj
      rw [hgd_self]
      dsimp only
      exact hs.exit_logged j hj
    · rw [hgd_ne j hjj]
      exact hs.exit_logged j hj
  · intro j hj i st hmem hst
    rw [hlen] at hj
    rw [hlog] at hmem
    by_cases hjj : j = j0
    · subst hjj
      rw [hgd_self]
      dsimp only
      exact hs.fail_exit j hj i st hmem hst
    · rw [hgd_ne j hjj]
      exact hs.fail_exit j hj i st hmem hst
  · rw [hth]
    intro u hu j hun hph
    rcases List.mem_or_eq_of_mem_set hu with hmem | rfl
    · by_cases hjj : j = j0
      · subst hjj
        intro hne
        exfalso
        rw [hgd_self] at hne
        dsimp only at hne
        have hfin := hs.owner_fin u hmem j hun hph hne
        obtain ⟨hle, hiff⟩ := hs.nonempty_stack j hj0lt hne
        have := hiff.mpr hj0mem
        omega
      · rw [hgd_ne j hjj]
        exact hs.owner_fin u hmem j hun hph
    · exfalso
      rcases hph with hr | ⟨r, hr⟩ <;> simp at hr
  · intro hun
    rw [hinit] at hun
    have := hs.uninit_jobs hun
    rw [hjobs] at this
    exact absurd this (by simp)
  · intro hsd'
    rw [hsd] at hsd'
    have := hs.shutdown_jobs hsd'
    rw [hjobs] at this
    exact absurd this (by simp)
  · rw [hth, hlen]
    intro u hu j hun
    rcases List.mem_or_eq_of_mem_set hu with hmem | rfl
    · exact hs.owned_lt u hmem j hun
    · have hun' : ow = some j := hun
      rw [hown] at hun'
      exact hs.owned_lt t (List.get?_mem hget) j hun'

theorem jobInv_finishStep2 {s : SysState} (hs : JobInv s) {tid : Nat} {t : Thread}
    (hget : s.threads.get? tid = some t)
    {j0 : JobId} {idx : Int} (hph : t.phase = .executing j0 idx)
    (s' : SysState)
    (hq : s'.queue.jobs = s.queue.jobs)
    (hworks : s'.works = s.works.set j0
      { s.works.getD j0 default with
        exitStatus := if (s.works.getD j0 default).f idx ≠ 0 then (s.works.getD j0 default).f idx
          else (s.works.getD j0 default).exitStatus
        activeWorkers := (s.works.getD j0 default).activeWorkers - 1 })
    (hth : s'.threads = s.threads.set tid { t with phase := .atLoop })
    (hlog : s'.log = s.log ++ [(j0, idx, (s.works.getD j0 default).f idx)])
    (hsd : s'.queue.shutdown = s.queue.shutdown)
    (hinit : s'.initialized = s.initialized) : JobInv s' := by
  have htmem : t ∈ s.threads := List.get?_mem hget
  have hj0lt : j0 < s.works.length := hs.exec_lt t htmem j0 idx hph
  have hlen : s'.works.length = s.works.length := by rw [hworks, List.length_set]
  have hgd_self : s'.works.getD j0 default =
      { s.works.getD j0 default with
        exitStatus := if (s.works.getD j0 default).f idx ≠ 0 then (s.works.getD j0 default).f idx
          else (s.works.getD j0 default).exitStatus
        activeWorkers := (s.works.getD j0 default).activeWorkers - 1 } := by
    rw [hworks]; exact getD_set_self _ _ hj0lt
  have hgd_ne : ∀ j, j ≠ j0 → s'.works.getD j default = s.works.getD j default := by
    intro j hne
    rw [hworks]; exact getD_set_ne _ _ (fun hcc => hne hcc.symm)
  have hc0self : contrib j0 t = some idx := by
    simp [contrib, hph]
  have hc0ne : ∀ j, j ≠ j0 → contrib j t = none := by
    intro j hne
    simp only [contrib, hph]
    rw [if_neg (fun hcc => hne hcc.symm)]
  have hc1 : ∀ j, contrib j ({ t with phase := Phase.atLoop } : Thread) = none := by
    intro j; simp [contrib]
  have hperm_self : ((inflight s' j0) ++ [idx]).Perm (inflight s j0) := by
    have := filterMap_set_perm (contrib j0) hget ({ t with phase := Phase.atLoop } : Thread)
    rw [hc0self, hc1 j0] at this
    simp only [Option.toList_none, Option.toList_some, List.append_nil] at this
    unfold inflight
    rw [hth]
    exact this
  have hperm_ne : ∀ j, j ≠ j0 → (inflight s' j).Perm (inflight s j) := by
    intro j hne
    have := filterMap_set_perm (contrib j) hget ({ t with phase := Phase.atLoop } : Thread)
    rw [hc0ne j hne, hc1 j] at this
    simp only [Option.toList_none, List.append_nil] at this
    unfold inflight
    rw [hth]
    exact this
  have hlog_self : loggedIdx s' j0 = loggedIdx s j0 ++ [idx] := by
    unfold loggedIdx
    rw [hlog, List.filterMap_append]
    simp
  have hlog_ne : ∀ j, j ≠ j0 → loggedIdx s' j = loggedIdx s j := by
    intro j hne
    unfold loggedIdx
    rw [hlog, List.filterMap_append]
    simp only [List.filterMap_cons, List.filterMap_nil]
    rw [if_neg (fun hcc => hne hcc.symm)]
    simp
  have hidxmem : idx ∈ inflight s j0 :=
    List.mem_filterMap.mpr ⟨t, htmem, hc0self⟩
  constructor
  · rw [hq, hlen]; exact hs.jobs_lt
  · rw [hq]; exact hs.jobs_nodup
  · rw [hth, hlen]
    intro u hu j i hp
    rcases List.mem_or_eq_of_mem_set hu with hmem | rfl
    · exact hs.exec_lt u hmem j i hp
    · simp at hp
  · intro j hj
    rw [hlen] at hj
    by_cases hjj : j = j0
    · subst hjj
      rw [hgd_self]
      exact hs.min_le_next j hj
    · rw [hgd_ne j hjj]
      exact hs.min_le_next j hj
  · intro j hj
    rw [hlen] at hj
    by_cases hjj : j = j0
    · subst hjj
      rw [hgd_self]
      exact hs.min_le_max j hj
    · rw [hgd_ne j hjj]
      exact hs.min_le_max j hj
  · intro j hj hne
    rw [hlen] at hj
    rw [hq]
    by_cases hjj : j = j0
    · subst hjj
      rw [hgd_self] at hne ⊢
      dsimp only at hne ⊢
      exact hs.nonempty_stack j hj hne
    · rw [hgd_ne j hjj] at hne ⊢
      exact hs.nonempty_stack j hj hne
  · intro j hj
    rw [hlen] at hj
    by_cases hjj : j = j0
    · subst hjj
      rw [hgd_self]
      dsimp only
      have hlact := hs.active_eq j hj
      have hl := hperm_self.length_eq
      simp only [List.length_append, List.length_cons, List.length_nil] at hl
      omega
    · rw [hgd_ne j hjj, (hperm_ne j hjj).length_eq]
      exact hs.active_eq j hj
  · intro j hj
    rw [hlen] at hj
    by_cases hjj : j = j0
    · subst hjj
      rw [hgd_self, hlog_self]
      dsimp only
      rw [← List.append_assoc]
      have key : ((inflight s' j ++ loggedIdx s j) ++ [idx]).Perm
          ((inflight s' j ++ [idx]) ++ loggedIdx s j) := by
        rw [List.append_assoc, List.append_assoc]
        exact List.Perm.append_left _ List.perm_append_comm
      exact key.trans ((hperm_self.append_right _).trans (hs.claims_perm j hj))
    · rw [hgd_ne j hjj, hlog_ne j hjj]
      exact ((hperm_ne j hjj).append_right _).trans (hs.claims_perm j hj)
  · rw [hlog, hlen]
    intro e he
    rcases List.mem_append.mp he with hmem | hone
    · exact hs.log_lt e hmem
    · simp only [List.mem_singleton] at hone
      rw [hone]
      exact hj0lt
  · rw [hlog]
    intro e he
    rcases List.mem_append.mp he with hmem | hone
    · by_cases hjj : e.1 = j0
      · rw [hjj, hgd_self]
        dsimp only
        have := hs.log_status e hmem
        rw [hjj] at this
        exact this
      · rw [hgd_ne e.1 hjj]
        exact hs.log_status e hmem
    · simp only [List.mem_singleton] at hone
      rw [hone]
      dsimp only
      rw [hgd_self]
  · intro j hj hex
    rw [hlen] at hj
    rw [hlog]
    by_cases hjj : j = j0
    · subst hjj
      rw [hgd_self] at hex ⊢
      dsimp only at hex ⊢
      by_cases hres : (s.works.getD j default).f idx ≠ 0
      · rw [if_pos hres] at hex ⊢
        exact ⟨idx, List.mem_append_right _ (List.mem_singleton.mpr rfl)⟩
      · rw [if_neg hres] at hex ⊢
        obtain ⟨i, hi⟩ := hs.exit_logged j hj hex
        exact ⟨i, List.mem_append_left _ hi⟩
    · rw [hgd_ne j hjj] at hex ⊢
      obtain ⟨i, hi⟩ := hs.exit_logged j hj hex
      exact ⟨i, List.mem_append_left _ hi⟩
  · intro j hj i st hmem hst
    rw [hlen] at hj
    rw [hlog] at hmem
    by_cases hjj : j = j0
    · subst hjj
      rw [hgd_self]
      dsimp only
      rcases List.mem_append.mp hmem with hmem2 | hone
      · have := hs.fail_exit j hj i st hmem2 hst
        by_cases hres : (s.works.getD j default).f idx ≠ 0
        · rw [if_pos hres]; exact hres
        · rw [if_neg hres]; exact this
      · simp only [List.mem_singleton, Prod.mk.injEq] at hone
        obtain ⟨-, -, hst2⟩ := hone
        have hres : (s.works.getD j default).f idx ≠ 0 := by rw [← hst2]; exact hst
        rw [if_pos hres]
        exact hres
    · rw [hgd_ne j hjj]
      rcases List.mem_append.mp hmem with hmem2 | hone
      · exact hs.fail_exit j hj i st hmem2 hst
      · simp only [List.mem_singleton, Prod.mk.injEq] at hone
        exact absurd hone.1 hjj
  · rw [hth]
    intro u hu j hun hp
    rcases List.mem_or_eq_of_mem_set hu with hmem | rfl
    · by_cases hjj : j = j0
      · subst hjj
        intro hne
        exfalso
        rw [hgd_self] at hne
        dsimp only at hne
        obtain ⟨-, hact, -⟩ := hs.owner_fin u hmem j hun hp hne
        have := hs.active_eq j hj0lt
        rw [hact] at this
        have hz : (inflight s j).length = 0 := by omega
        rw [List.length_eq_zero] at hz
        rw [hz] at hidxmem
        exact absurd hidxmem (List.not_mem_nil _)
      · rw [hgd_ne j hjj]
        exact hs.owner_fin u hmem j hun hp
    · exfalso
      rcases hp with hr | ⟨r, hr⟩ <;> simp at hr
  · rw [hinit, hq]; exact hs.uninit_jobs
  · rw [hsd, hq]; exact hs.shutdown_jobs
  · rw [hth, hlen]
    intro u hu j hun
    rcases List.mem_or_eq_of_mem_set hu with hmem | rfl
    · exact hs.owned_lt u hmem j hun
    · have hun' : t.owned = some j := hun
      exact hs.owned_lt t htmem j hun'


theorem contrib_replicate_nil (j : JobId) (k : Nat) :
    List.filterMap (contrib j) (List.replicate k (⟨none, .atLoop⟩ : Thread)) = [] := by
  rw [List.filterMap_eq_nil_iff]
  intro a ha
  rw [List.eq_of_mem_replicate ha]
  rfl

theorem jobInv_lazyInit {s : SysState} (hs : JobInv s) : JobInv (lazyInit s) := by
  unfold lazyInit
  split
  next => exact hs
  next hninit =>
    have hinit' : s.initialized = false := by
      revert hninit; cases s.initialized <;> simp
    have hjobs0 : s.queue.jobs = [] := hs.uninit_jobs hinit'
    constructor
    · dsimp only
      intro j hj
      exact absurd hj (List.not_mem_nil j)
    · dsimp only
      exact List.nodup_nil
    · dsimp only
      intro u hu j idx hph
      rcases List.mem_append.mp hu with hmem | hrep
      · exact hs.exec_lt u hmem j idx hph
      · rw [List.eq_of_mem_replicate hrep] at hph
        exact absurd hph (by simp)
    · dsimp only; exact hs.min_le_next
    · dsimp only; exact hs.min_le_max
    · dsimp only
      intro j hj hne
      obtain ⟨hle, hiff⟩ := hs.nonempty_stack j hj hne
      refine ⟨hle, ?iff⟩
      rw [hjobs0] at hiff
      exact hiff
    · intro j hj
      unfold inflight
      dsimp only
      rw [List.filterMap_append, contrib_replicate_nil, List.append_nil]
      exact hs.active_eq j hj
    · intro j hj
      unfold inflight loggedIdx
      dsimp only
      rw [List.filterMap_append, contrib_replicate_nil, List.append_nil]
      exact hs.claims_perm j hj
    · dsimp only; exact hs.log_lt
    · dsimp only; exact hs.log_status
    · dsimp only; exact hs.exit_logged
    · dsimp only; exact hs.fail_exit
    · dsimp only
      intro u hu j hun hph
      rcases List.mem_append.mp hu with hmem | hrep
      · exact hs.owner_fin u hmem j hun hph
      · rw [List.eq_of_mem_replicate hrep] at hun
        exact absurd hun (by simp)
    · intro _; rfl
    · intro hbad
      exact absurd hbad (by simp)
    · dsimp only
      intro u hu j hun
      rcases List.mem_append.mp hu with hmem | hrep
      · exact hs.owned_lt u hmem j hun
      · rw [List.eq_of_mem_replicate hrep] at hun
        exact absurd hun (by simp)

theorem jobInv_push {s1 : SysState} (hs : JobInv s1) {f : Int → Int} {mn sz : Int}
    (hsz : 0 ≤ sz)
    (s' : SysState)
    (hq : s'.queue.jobs = s1.works.length :: s1.queue.jobs)
    (hworks : s'.works = s1.works ++
      [{ f := f, min0 := mn, next := mn, max := mn + sz, activeWorkers := 0, exitStatus := 0 }])
    (hth : s'.threads = s1.threads ++ [⟨some s1.works.length, .atLoop⟩])
    (hlog : s'.log = s1.log)
    (hsd1 : s1.queue.shutdown = false)
    (hsd : s'.queue.shutdown = s1.queue.shutdown)
    (hinit : s'.initialized = true) : JobInv s' := by
  have hlen : s'.works.length = s1.works.length + 1 := by
    rw [hworks, List.length_append, List.length_cons, List.length_nil]
  have hgd_old : ∀ j, j < s1.works.length → s'.works.getD j default = s1.works.getD j default := by
    intro j hj
    rw [hworks]
    exact getD_append_lt _ hj
  have hgd_new : s'.works.getD s1.works.length default =
      { f := f, min0 := mn, next := mn, max := mn + sz, activeWorkers := 0, exitStatus := 0 } := by
    rw [hworks]
    exact getD_append_len _ _
  have hifl : ∀ j, inflight s' j = inflight s1 j := by
    intro j
    unfold inflight
    rw [hth, List.filterMap_append]
    simp [contrib]
  have hifl_new : inflight s1 s1.works.length = [] := by
    unfold inflight
    rw [List.filterMap_eq_nil_iff]
    intro u hu
    unfold contrib
    split
    next j' idx heq =>
      have hlt := hs.exec_lt u hu j' idx heq
      rw [if_neg (Nat.ne_of_lt hlt)]
    next => rfl
  have hlidx : ∀ j, loggedIdx s' j = loggedIdx s1 j := by
    intro j; unfold loggedIdx; rw [hlog]
  have hlidx_new : loggedIdx s1 s1.works.length = [] := by
    unfold loggedIdx
    rw [List.filterMap_eq_nil_iff]
    intro e he
    have hlt := hs.log_lt e he
    rw [if_neg (Nat.ne_of_lt hlt)]
  constructor
  · rw [hq, hlen]
    intro j hj
    rcases List.mem_cons.mp hj with rfl | hmem
    · exact Nat.lt_succ_self _
    · exact Nat.lt_succ_of_lt (hs.jobs_lt j hmem)
  · rw [hq]
    exact List.nodup_cons.mpr
      ⟨fun hmem => Nat.lt_irrefl _ (hs.jobs_lt _ hmem), hs.jobs_nodup⟩
  · rw [hth, hlen]
    intro u hu j idx hph
    rcases List.mem_append.mp hu with hmem | hone
    · exact Nat.lt_succ_of_lt (hs.exec_lt u hmem j idx hph)
    · simp only [List.mem_singleton] at hone
      rw [hone] at hph
      exact absurd hph (by simp)
  · intro j hj
    rw [hlen] at hj
    by_cases hjj : j = s1.works.length
    · subst hjj
      rw [hgd_new]
    · have hj' : j < s1.works.length := by omega
      rw [hgd_old j hj']
      exact hs.min_le_next j hj'
  · intro j hj
    rw [hlen] at hj
    by_cases hjj : j = s1.works.length
    · subst hjj
      rw [hgd_new]
      dsimp only
      omega
    · have hj' : j < s1.works.length := by omega
      rw [hgd_old j hj']
      exact hs.min_le_max j hj'
  · intro j hj hne
    rw [hlen] at hj
    rw [hq]
    by_cases hjj : j = s1.works.length
    · subst hjj
      rw [hgd_new] at hne ⊢
      dsimp only at hne ⊢
      exact ⟨le_of_lt hne, fun _ => List.mem_cons_self _ _, fun _ => hne⟩
    · have hj' : j < s1.works.length := by omega
      rw [hgd_old j hj'] at hne ⊢
      obtain ⟨hle, hiff⟩ := hs.nonempty_stack j hj' hne
      refine ⟨hle, fun hlt => List.mem_cons_of_mem _ (hiff.mp hlt), fun hm => ?mpr⟩
      rcases List.mem_cons.mp hm with hq2 | hm2
      · exact absurd hq2 hjj
      · exact hiff.mpr hm2
  · intro j hj
    rw [hlen] at hj
    rw [hifl j]
    by_cases hjj : j = s1.works.length
    · subst hjj
      rw [hgd_new, hifl_new]
      rfl
    · have hj' : j < s1.works.length := by omega
      rw [hgd_old j hj']
      exact hs.active_eq j hj'
  · intro j hj
    rw [hlen] at hj
    rw [hifl j, hlidx j]
    by_cases hjj : j = s1.works.length
    · subst hjj
      rw [hgd_new, hifl_new, hlidx_new]
      dsimp only
      rw [intRange_empty (le_refl mn)]
      rfl
    · have hj' : j < s1.works.length := by omega
      rw [hgd_old j hj']
      exact hs.claims_perm j hj'
  · rw [hlog, hlen]
    intro e he
    exact Nat.lt_succ_of_lt (hs.log_lt e he)
  · rw [hlog]
    intro e he
    rw [hgd_old e.1 (hs.log_lt e he)]
    exact hs.log_status e he
  · intro j hj hex
    rw [hlen] at hj
    rw [hlog]
    by_cases hjj : j = s1.works.length
    · subst hjj
      rw [hgd_new] at hex
      exact absurd rfl hex
    · have hj' : j < s1.works.length := by omega
      rw [hgd_old j hj'] at hex ⊢
      exact hs.exit_logged j hj' hex
  · intro j hj i st hmem hst
    rw [hlen] at hj
    rw [hlog] at hmem
    by_cases hjj : j = s1.works.length
    · subst hjj
      exact absurd (hs.log_lt _ hmem) (Nat.lt_irrefl _)
    · have hj' : j < s1.works.length := by omega
      rw [hgd_old j hj']
      exact hs.fail_exit j hj' i st hmem hst
  · rw [hth]
    intro u hu j hun hph
    rcases List.mem_append.mp hu with hmem | hone
    · have hjlt := hs.owned_lt u hmem j hun
      rw [hgd_old j hjlt]
      exact hs.owner_fin u hmem j hun hph
    · simp only [List.mem_singleton] at hone
      rw [hone] at hph
      exfalso
      rcases hph with hr | ⟨r, hr⟩ <;> simp at hr
  · intro hbad
    rw [hinit] at hbad
    exact Bool.noConfusion hbad
  · intro hbad
    rw [hsd, hsd1] at hbad
    exact Bool.noConfusion hbad
  · rw [hth, hlen]
    intro u hu j hun
    rcases List.mem_append.mp hu with hmem | hone
    · exact Nat.lt_succ_of_lt (hs.owned_lt u hmem j hun)
    · simp only [List.mem_singleton] at hone
      rw [hone] at hun
      have hlj : s1.works.length = j := by
        injection hun
      rw [← hlj]
      exact Nat.lt_succ_self _


theorem jobInv_submitStep {s s' : SysState} {f : Int → Int} {mn sz : Int} (hs : JobInv s)
    (h : submitStep f mn sz s = some s') : JobInv s' := by
  unfold submitStep at h
  by_cases hsz : sz < 0
  · rw [if_pos hsz] at h; exact Option.noConfusion h
  rw [if_neg hsz] at h
  by_cases hsd : (s.initialized && s.queue.shutdown) = true
  · rw [if_pos hsd] at h; exact Option.noConfusion h
  rw [if_neg hsd] at h
  simp only [] at h
  injection h with h
  subst h
  have hs1 : JobInv (lazyInit s) := jobInv_lazyInit hs
  have hsd1 : (lazyInit s).queue.shutdown = false := by
    by_cases hi : s.initialized = true
    · rw [lazyInit_of_initialized hi]
      rw [hi] at hsd
      simp only [Bool.true_and] at hsd
      revert hsd
      cases s.queue.shutdown <;> simp
    · unfold lazyInit
      rw [if_neg hi]
  exact jobInv_push hs1 (by omega) _ rfl rfl rfl rfl hsd1 rfl (lazyInit_initialized s)

theorem jobInv_loopStep {s s' : SysState} {tid : Nat} (hs : JobInv s)
    (h : loopStep tid s = some s') : JobInv s' := by
  unfold loopStep at h
  cases hget : s.threads.get? tid with
  | none => rw [hget] at h; exact Option.noConfusion h
  | some t =>
    rw [hget] at h
    have htmem : t ∈ s.threads := List.get?_mem hget
    cases hph : t.phase
    case atLoop =>
      simp only [hph] at h
      have hc0 : ∀ j, contrib j t = none := by
        intro j; simp [contrib, hph]
      cases how : t.owned with
      | some oj =>
        simp only [how] at h
        by_cases hrun : (s.works.getD oj default).running = true
        · rw [if_pos hrun] at h
          cases hjobs : s.queue.jobs with
          | nil =>
            simp only [hjobs] at h
            injection h with h
            subst h
            refine jobInv_phase_swap hs hget ⟨some oj, .parkedOwners⟩ (by rw [how])
              hc0 (fun j => rfl) ?_ _ rfl rfl rfl rfl rfl rfl
            intro j hun hph2
            rcases hph2 with hr | ⟨r, hr⟩ <;> exact absurd hr (by simp)
          | cons j0 rest =>
            simp only [hjobs] at h
            injection h with h
            subst h
            exact jobInv_claimStep hs hget hc0 hjobs how.symm _ (by rw [hjobs]) rfl rfl rfl rfl rfl
        · rw [if_neg hrun] at h
          injection h with h
          subst h
          refine jobInv_phase_swap hs hget ⟨some oj, .returning⟩ (by rw [how])
            hc0 (fun j => rfl) ?_ _ rfl rfl rfl rfl rfl rfl
          intro j hun hph2 hne
          have hj : oj = j := by injection hun
          subst hj
          have hrun' : (s.works.getD oj default).running = false := by
            revert hrun; cases (s.works.getD oj default).running <;> simp
          unfold Work.running at hrun'
          simp only [Bool.or_eq_false_iff, decide_eq_false_iff_not, not_lt] at hrun'
          obtain ⟨hnx, hac⟩ := hrun'
          have hjlt : oj < s.works.length := hs.owned_lt t htmem oj how
          obtain ⟨hle, -⟩ := hs.nonempty_stack oj hjlt hne
          have hact := hs.active_eq oj hjlt
          have hinf : (0:Int) ≤ ((inflight s oj).length : Int) := Int.ofNat_nonneg _
          refine ⟨by omega, by omega, ?_⟩
          intro r hr
          exact absurd hr (by simp)
      | none =>
        simp only [how] at h
        by_cases hrun : s.queue.running = true
        · rw [if_pos hrun] at h
          cases hjobs : s.queue.jobs with
          | nil =>
            simp only [hjobs] at h
            by_cases hteam : s.queue.aTeamSize ≤ s.queue.targetATeamSize
            · rw [if_pos hteam] at h
              injection h with h
              subst h
              refine jobInv_phase_swap hs hget ⟨none, .parkedATeam⟩ (by rw [how])
                hc0 (fun j => rfl) ?_ _ rfl rfl rfl rfl rfl rfl
              intro j hun
              exact absurd hun (by simp)
            · rw [if_neg hteam] at h
              injection h with h
              subst h
              refine jobInv_phase_swap hs hget ⟨none, .parkedBTeam⟩ (by rw [how])
                hc0 (fun j => rfl) ?_ _ (by rw [hjobs]) rfl rfl rfl rfl rfl
              intro j hun
              exact absurd hun (by simp)
          | cons j0 rest =>
            simp only [hjobs] at h
            injection h with h
            subst h
            exact jobInv_claimStep hs hget hc0 hjobs how.symm _ (by rw [hjobs]) rfl rfl rfl rfl rfl
        · rw [if_neg hrun] at h
          injection h with h
          subst h
          refine jobInv_phase_swap hs hget ⟨none, .done 0⟩ (by rw [how])
            hc0 (fun j => rfl) ?_ _ rfl rfl rfl rfl rfl rfl
          intro j hun
          exact absurd hun (by simp)
    all_goals (simp only [hph] at h; exact Option.noConfusion h)


theorem jobInv_finishStep {s s' : SysState} {tid : Nat} (hs : JobInv s)
    (h : finishStep tid s = some s') : JobInv s' := by
  unfold finishStep at h
  cases hget : s.threads.get? tid with
  | none => rw [hget] at h; exact Option.noConfusion h
  | some t =>
    rw [hget] at h
    cases hph : t.phase
    case executing j0 idx =>
      simp only [hph] at h
      injection h with h
      subst h
      exact jobInv_finishStep2 hs hget hph _ rfl rfl rfl rfl rfl rfl
    all_goals (simp only [hph] at h; exact Option.noConfusion h)

theorem jobInv_retStep {s s' : SysState} {tid : Nat} (hs : JobInv s)
    (h : retStep tid s = some s') : JobInv s' := by
  unfold retStep at h
  cases hget : s.threads.get? tid with
  | none => rw [hget] at h; exact Option.noConfusion h
  | some t =>
    rw [hget] at h
    have htmem : t ∈ s.threads := List.get?_mem hget
    cases how : t.owned with
    | none => simp only [how] at h; exact Option.noConfusion h
    | some j =>
      cases hph : t.phase
      case returning =>
        simp only [how, hph] at h
        injection h with h
        subst h
        refine jobInv_phase_swap hs hget
          ⟨some j, .done (s.works.getD j default).exitStatus⟩ (by rw [how])
          (fun j' => by simp [contrib, hph]) (fun j' => rfl) ?_ _ rfl rfl rfl rfl rfl rfl
        intro j' hun hph2 hne
        have hjj : j = j' := by injection hun
        subst hjj
        obtain ⟨hnx, hac, -⟩ := hs.owner_fin t htmem j how (Or.inl hph) hne
        exact ⟨hnx, hac, fun r hr => by cases hr; rfl⟩
      all_goals (simp only [how, hph] at h; exact Option.noConfusion h)

theorem jobInv_wakeOwnersStep {s s' : SysState} {tid : Nat} (hs : JobInv s)
    (h : wakeOwnersStep tid s = some s') : JobInv s' := by
  unfold wakeOwnersStep at h
  cases hget : s.threads.get? tid with
  | none => rw [hget] at h; exact Option.noConfusion h
  | some t =>
    rw [hget] at h
    cases hph : t.phase
    case parkedOwners =>
      simp only [hph] at h
      injection h with h
      subst h
      refine jobInv_phase_swap hs hget { t with phase := .atLoop } rfl
        (fun j => by simp [contrib, hph]) (fun j => rfl) ?_ _ rfl rfl rfl rfl rfl rfl
      intro j hun hph2
      rcases hph2 with hr | ⟨r, hr⟩ <;> exact absurd hr (by simp)
    all_goals (simp only [hph] at h; exact Option.noConfusion h)

theorem jobInv_wakeATeamStep {s s' : SysState} {tid : Nat} (hs : JobInv s)
    (h : wakeATeamStep tid s = some s') : JobInv s' := by
  unfold wakeATeamStep at h
  cases hget : s.threads.get? tid with
  | none => rw [hget] at h; exact Option.noConfusion h
  | some t =>
    rw [hget] at h
    cases hph : t.phase
    case parkedATeam =>
      simp only [hph] at h
      injection h with h
      subst h
      refine jobInv_phase_swap hs hget { t with phase := .atLoop } rfl
        (fun j => by simp [contrib, hph]) (fun j => rfl) ?_ _ rfl rfl rfl rfl rfl rfl
      intro j hun hph2
      rcases hph2 with hr | ⟨r, hr⟩ <;> exact absurd hr (by simp)
    all_goals (simp only [hph] at h; exact Option.noConfusion h)

theorem jobInv_wakeBTeamStep {s s' : SysState} {tid : Nat} (hs : JobInv s)
    (h : wakeBTeamStep tid s = some s') : JobInv s' := by
  unfold wakeBTeamStep at h
  cases hget : s.threads.get? tid with
  | none => rw [hget] at h; exact Option.noConfusion h
  | some t =>
    rw [hget] at h
    cases hph : t.phase
    case parkedBTeam =>
      simp only [hph] at h
      injection h with h
      subst h
      refine jobInv_phase_swap hs hget { t with phase := .atLoop } rfl
        (fun j => by simp [contrib, hph]) (fun j => rfl) ?_ _ rfl rfl rfl rfl rfl rfl
      intro j hun hph2
      rcases hph2 with hr | ⟨r, hr⟩ <;> exact absurd hr (by simp)
    all_goals (simp only [hph] at h; exact Option.noConfusion h)

theorem jobInv_beginShutdownStep {s s' : SysState} (hs : JobInv s)
    (h : beginShutdownStep s = some s') : JobInv s' := by
  unfold beginShutdownStep at h
  by_cases hinit : s.initialized = false
  · rw [if_pos hinit] at h
    injection h with h
    subst h
    exact hs
  · rw [if_neg hinit] at h
    by_cases hq : s.queue.jobs = [] ∧ s.threads.all Thread.quiet = true
    · rw [if_pos hq] at h
      injection h with h
      subst h
      constructor
      · exact hs.jobs_lt
      · exact hs.jobs_nodup
      · exact hs.exec_lt
      · exact hs.min_le_next
      · exact hs.min_le_max
      · exact hs.nonempty_stack
      · exact hs.active_eq
      · exact hs.claims_perm
      · exact hs.log_lt
      · exact hs.log_status
      · exact hs.exit_logged
      · exact hs.fail_exit
      · exact hs.owner_fin
      · exact hs.uninit_jobs
      · intro _
        exact hq.1
      · exact hs.owned_lt
    · rw [if_neg hq] at h
      exact Option.noConfusion h

theorem jobInv_joinStep {s s' : SysState} (hs : JobInv s)
    (h : joinStep s = some s') : JobInv s' := by
  unfold joinStep at h
  by_cases hc : (s.initialized && s.queue.shutdown
      && s.threads.all (fun t => t.owned.isSome || t.phase.isDone)) = true
  · rw [if_pos hc] at h
    injection h with h
    subst h
    simp only [Bool.and_eq_true, List.all_eq_true] at hc
    obtain ⟨⟨hinit, hsd⟩, hall⟩ := hc
    have hsub : ∀ u ∈ s.threads.filter (fun t => t.owned.isSome), u ∈ s.threads := by
      intro u hu
      exact (List.mem_filter.mp hu).1
    have hifl : ∀ j, inflight
        { s with threads := s.threads.filter (fun t => t.owned.isSome), initialized := false } j
          = inflight s j := by
      intro j
      unfold inflight
      dsimp only
      refine filterMap_filter_eq _ _ _ ?cond
      intro u hu hp
      have := hall u hu
      rw [hp] at this
      simp only [Bool.false_or] at this
      revert this
      unfold Phase.isDone contrib
      split <;> split <;> simp_all
    constructor
    · exact hs.jobs_lt
    · exact hs.jobs_nodup
    · dsimp only
      intro u hu j idx hph
      exact hs.exec_lt u (hsub u hu) j idx hph
    · exact hs.min_le_next
    · exact hs.min_le_max
    · exact hs.nonempty_stack
    · intro j hj
      rw [hifl j]
      exact hs.active_eq j hj
    · intro j hj
      rw [hifl j]
      exact hs.claims_perm j hj
    · exact hs.log_lt
    · exact hs.log_status
    · exact hs.exit_logged
    · exact hs.fail_exit
    · dsimp only
      intro u hu j hun hph
      exact hs.owner_fin u (hsub u hu) j hun hph
    · intro _
      exact hs.shutdown_jobs hsd
    · exact hs.shutdown_jobs
    · dsimp only
      intro u hu j hun
      exact hs.owned_lt u (hsub u hu) j hun
  · rw [if_neg hc] at h
    exact Option.noConfusion h

/-- `JobInv` is preserved by every action. -/
theorem jobInv_applyAction {s s' : SysState} {a : Action} (hs : JobInv s)
    (h : applyAction s a = some s') : JobInv s' := by
  cases a with
  | submit f mn sz => exact jobInv_submitStep hs h
  | loop tid => exact jobInv_loopStep hs h
  | finish tid => exact jobInv_finishStep hs h
  | ret tid => exact jobInv_retStep hs h
  | wakeOwners tid => exact jobInv_wakeOwnersStep hs h
  | wakeATeam tid => exact jobInv_wakeATeamStep hs h
  | wakeBTeam tid => exact jobInv_wakeBTeamStep hs h
  | beginShutdown => exact jobInv_beginShutdownStep hs h
  | join => exact jobInv_joinStep hs h

theorem jobInv_run {s s' : SysState} {acts : List Action} (hs : JobInv s)
    (h : run s acts = some s') : JobInv s' := by
  induction acts generalizing s with
  | nil =>
    unfold run at h
    injection h with h
    subst h
    exact hs
  | cons a rest ih =>
    unfold run at h
    cases happ : applyAction s a with
    | none => rw [happ] at h; exact Option.noConfusion h
    | some s1 =>
      rw [happ] at h
      exact ih (jobInv_applyAction hs happ) h

/-- Every reachable state satisfies `JobInv`. -/
theorem jobInv_reachable {s : SysState} (hs : Reachable s) : JobInv s := by
  obtain ⟨p, l, c, acts, hrun⟩ := hs
  exact jobInv_run (jobInv_initState p l c) hrun


/-! ### Claim theorems -/

/-- C8: in every reachable state, `a_team_size` and `target_a_team_size` are
in `[0, num_threads]`; the A-team accounting established at lazy
initialization is preserved by the B-team transitions of the worker loop and
by every submission's team sizing. -/
theorem C8_team_sizes_in_range {s : SysState} (hs : Reachable s) :
    0 ≤ s.queue.aTeamSize ∧ s.queue.aTeamSize ≤ s.numThreads ∧
    0 ≤ s.queue.targetATeamSize ∧ s.queue.targetATeamSize ≤ s.numThreads := by
  have h := teamInv_reachable hs
  have hsum := h.team_sum
  have hbw : bParkedN s ≤ workerCountN s := by
    unfold bParkedN workerCountN
    refine List.countP_mono_left ?mono
    intro u hu hp
    have hob : u.owned = none := h.bparked_worker u hu (by
      revert hp
      unfold Thread.isBParked
      split <;> simp_all)
    simp [Thread.isWorker, hob]
  have hb0 : 0 ≤ (bParkedN s : Int) := Int.ofNat_nonneg _
  refine ⟨?a1, ?a2, h.target_nonneg, h.target_le⟩
  case a1 =>
    by_cases hi : s.initialized = true
    · obtain ⟨hwc, hnt⟩ := h.init_workers hi
      have : (bParkedN s : Int) ≤ (workerCountN s : Int) := by exact_mod_cast hbw
      omega
    · have hi' : s.initialized = false := by revert hi; cases s.initialized <;> simp
      obtain ⟨hwc, hbp, hnt⟩ := h.uninit_state hi'
      rw [hbp] at hsum
      simp only [Nat.cast_zero] at hsum
      omega
  case a2 => omega

/-- A reachable state used to witness the reachable-state claims: the
zero-initialized process state. -/
theorem C8_witness :
    0 ≤ (initState none none 4).queue.aTeamSize ∧
    (initState none none 4).queue.aTeamSize ≤ (initState none none 4).numThreads ∧
    0 ≤ (initState none none 4).queue.targetATeamSize ∧
    (initState none none 4).queue.targetATeamSize ≤ (initState none none 4).numThreads :=
  C8_team_sizes_in_range ⟨none, none, 4, [], rfl⟩

/-- C6: every submission sets `target_a_team_size`, with the mutex held and
before pushing the job, to `size` exactly when the job stack is empty and
`size < num_threads` (both evaluated after the lazy-initialization block),
and to `num_threads` otherwise.  For an already initialized pool the
condition is over the pre-submission state itself. -/
theorem C6_target_team_size (s s' : SysState) (f : Int → Int) (mn sz : Int)
    (h : submitStep f mn sz s = some s') :
    (s'.queue.targetATeamSize =
      if (lazyInit s).queue.jobs = [] ∧ sz < (lazyInit s).numThreads then sz
      else (lazyInit s).numThreads) ∧
    (s.initialized = true →
      s'.queue.targetATeamSize =
        if s.queue.jobs = [] ∧ sz < s.numThreads then sz else s.numThreads) := by
  unfold submitStep at h
  by_cases hsz : sz < 0
  · rw [if_pos hsz] at h; exact Option.noConfusion h
  rw [if_neg hsz] at h
  by_cases hsd : (s.initialized && s.queue.shutdown) = true
  · rw [if_pos hsd] at h; exact Option.noConfusion h
  rw [if_neg hsd] at h
  simp only [] at h
  injection h with h
  subst h
  refine ⟨rfl, ?inited⟩
  intro hi
  rw [lazyInit_of_initialized hi]

def C6exampleStart : SysState := initState none none 2

def C6exampleState : SysState :=
  (submitStep (fun _ => 0) 0 5 C6exampleStart).getD C6exampleStart

theorem C6_witness :
    C6exampleState.queue.targetATeamSize =
      if (lazyInit C6exampleStart).queue.jobs = [] ∧ 5 < (lazyInit C6exampleStart).numThreads
      then 5 else (lazyInit C6exampleStart).numThreads :=
  (C6_target_team_size C6exampleStart C6exampleState (fun _ => 0) 0 5 rfl).1

/-- C7: at lazy initialization, when `num_threads` is not already set, the
pool size comes from `HL_NUM_THREADS`, else the legacy `HL_NUMTHREADS`,
else the host CPU count; the result is clamped into `[1, MAX_THREADS]`
with `MAX_THREADS = 64`, and `num_threads - 1` workers are spawned. -/
theorem C7_pool_size_determination :
    (∀ (p l : Option Int) (c : Int),
      computeNumThreads 0 p l c = clampThreads (p.getD (l.getD c))) ∧
    (∀ (cur : Int) (p l : Option Int) (c : Int),
      1 ≤ computeNumThreads cur p l c ∧ computeNumThreads cur p l c ≤ MAX_THREADS) ∧
    MAX_THREADS = 64 ∧
    (∀ (s s' : SysState) (f : Int → Int) (mn sz : Int),
      s.initialized = false → s.threads = [] → s.numThreads = 0 →
      submitStep f mn sz s = some s' →
      s'.numThreads = computeNumThreads 0 s.envPrimary s.envLegacy s.cpuCount ∧
      (workerCountN s' : Int) = s'.numThreads - 1) := by
  refine ⟨?env, ?bounds, rfl, ?spawn⟩
  case env =>
    intro p l c
    unfold computeNumThreads
    rw [if_pos rfl]
    cases p <;> cases l <;> rfl
  case bounds =>
    intro cur p l c
    exact ⟨computeNumThreads_pos cur p l c, computeNumThreads_le cur p l c⟩
  case spawn =>
    intro s s' f mn sz hinit hth hnum h
    unfold submitStep at h
    by_cases hsz : sz < 0
    · rw [if_pos hsz] at h; exact Option.noConfusion h
    rw [if_neg hsz] at h
    by_cases hsd : (s.initialized && s.queue.shutdown) = true
    · rw [if_pos hsd] at h; exact Option.noConfusion h
    rw [if_neg hsd] at h
    simp only [] at h
    injection h with h
    subst h
    have hlz : (lazyInit s).numThreads
        = computeNumThreads s.numThreads s.envPrimary s.envLegacy s.cpuCount := by
      unfold lazyInit
      rw [if_neg (by rw [hinit]; exact Bool.false_ne_true)]
    have hni : ¬(s.initialized = true) := by rw [hinit]; exact Bool.false_ne_true
    constructor
    · dsimp only
      rw [hlz, hnum]
    · have hpos : 1 ≤ computeNumThreads s.numThreads s.envPrimary s.envLegacy s.cpuCount :=
        computeNumThreads_pos _ _ _ _
      unfold workerCountN
      dsimp only
      unfold lazyInit
      rw [if_neg hni, hth]
      dsimp only
      rw [List.nil_append, List.countP_append, List.countP_replicate]
      simp only [Thread.isWorker, Option.isNone_none, Option.isNone_some, if_pos,
        List.countP_cons, List.countP_nil]
      push_cast
      omega

def C7exampleStart : SysState := initState (some 200) none 8

def C7exampleState : SysState :=
  (submitStep (fun _ => 0) 0 5 C7exampleStart).getD C7exampleStart

theorem C7_witness :
    (computeNumThreads 0 (some 200) none 8 = clampThreads 200 ∧
      computeNumThreads 0 (some 200) none 8 = 64) ∧
    C7exampleState.numThreads
      = computeNumThreads 0 C7exampleStart.envPrimary C7exampleStart.envLegacy
          C7exampleStart.cpuCount ∧
    (workerCountN C7exampleState : Int) = C7exampleState.numThreads - 1 :=
  ⟨⟨C7_pool_size_determination.1 (some 200) none 8, by decide⟩,
    C7_pool_size_determination.2.2.2 C7exampleStart C7exampleState _ 0 5 rfl rfl rfl rfl⟩


/-- C5: a worker's claim step on a stacked job whose cursor already equals
`max` increments `next` to `max + 1`, fails the unlink test (so the job
stays on the stack — and no claim step ever unlinks a job whose cursor is
at or past `max`), and invokes the task at the out-of-range index `max`. -/
theorem C5_claim_step_empty_job (s s' : SysState) (tid : Nat) (t : Thread)
    (j0 : JobId) (rest : List JobId)
    (hget : s.threads.get? tid = some t)
    (hph : t.phase = .atLoop)
    (hown : t.owned = none)
    (hsd : s.queue.shutdown = false)
    (hjobs : s.queue.jobs = j0 :: rest)
    (hjlt : j0 < s.works.length)
    (hempty : (s.works.getD j0 default).next = (s.works.getD j0 default).max)
    (h : loopStep tid s = some s') :
    (s'.works.getD j0 default).next = (s.works.getD j0 default).max + 1 ∧
    s'.queue.jobs = j0 :: rest ∧
    (s'.threads.getD tid default).phase
      = .executing j0 (s.works.getD j0 default).max ∧
    (∀ (u u' : SysState) (tid2 : Nat) (j2 : JobId) (rest2 : List JobId),
      u.queue.jobs = j2 :: rest2 →
      (u.works.getD j2 default).next ≥ (u.works.getD j2 default).max →
      loopStep tid2 u = some u' → j2 ∈ u'.queue.jobs) := by
  unfold loopStep at h
  rw [hget] at h
  simp only [hph, hown, hjobs] at h
  have hrun : s.queue.running = true := by
    unfold WorkQueue.running
    rw [hsd]
    rfl
  rw [if_pos hrun] at h
  injection h with h
  subst h
  have htlt : tid < s.threads.length := (List.get?_eq_some.mp hget).1
  have hnmax : ¬((s.works.getD j0 default).next + 1 = (s.works.getD j0 default).max) := by
    omega
  refine ⟨?nx, ?stack, ?exec, ?general⟩
  case nx =>
    dsimp only
    rw [getD_set_self _ _ hjlt]
    dsimp only
    omega
  case stack =>
    dsimp only
    rw [if_neg hnmax]
  case exec =>
    dsimp only
    rw [getD_set_self _ _ htlt]
    dsimp only
    rw [hempty]
  case general =>
    intro u u' tid2 j2 rest2 hjobs2 hge happ
    unfold loopStep at happ
    cases hget2 : u.threads.get? tid2 with
    | none => rw [hget2] at happ; exact Option.noConfusion happ
    | some t2 =>
      rw [hget2] at happ
      cases hph2 : t2.phase
      case atLoop =>
        simp only [hph2, hjobs2] at happ
        have hnm2 : ¬((u.works.getD j2 default).next + 1 = (u.works.getD j2 default).max) := by
          omega
        cases how2 : t2.owned with
        | some oj =>
          simp only [how2] at happ
          by_cases hr2 : (u.works.getD oj default).running = true
          · rw [if_pos hr2] at happ
            injection happ with happ
            subst happ
            dsimp only
            rw [if_neg hnm2]
            exact List.mem_cons_self _ _
          · rw [if_neg hr2] at happ
            injection happ with happ
            subst happ
            rw [hjobs2]
            exact List.mem_cons_self _ _
        | none =>
          simp only [how2] at happ
          by_cases hr2 : u.queue.running = true
          · rw [if_pos hr2] at happ
            injection happ with happ
            subst happ
            dsimp only
            rw [if_neg hnm2]
            exact List.mem_cons_self _ _
          · rw [if_neg hr2] at happ
            injection happ with happ
            subst happ
            rw [hjobs2]
            exact List.mem_cons_self _ _
      all_goals (simp only [hph2] at happ; exact Option.noConfusion happ)

def C5exampleStart : SysState :=
  (run (initState none none 2) [.submit (fun _ => 0) 0 0]).getD (initState none none 2)

def C5exampleState : SysState := (loopStep 0 C5exampleStart).getD C5exampleStart

theorem C5_witness :
    (C5exampleStart.threads.get? 0 = some ⟨none, .atLoop⟩ ∧
      C5exampleStart.queue.jobs = [0] ∧
      (C5exampleStart.works.getD 0 default).next = (C5exampleStart.works.getD 0 default).max) ∧
    ((C5exampleState.works.getD 0 default).next
        = (C5exampleStart.works.getD 0 default).max + 1 ∧
      C5exampleState.queue.jobs = [0] ∧
      (C5exampleState.threads.getD 0 default).phase
        = .executing 0 (C5exampleStart.works.getD 0 default).max) := by
  have h := C5_claim_step_empty_job C5exampleStart C5exampleState 0 ⟨none, .atLoop⟩ 0 []
    (by decide) rfl rfl (by decide) (by decide) (by decide) (by decide) rfl
  exact ⟨⟨by decide, by decide, by decide⟩, ⟨h.1, h.2.1, h.2.2.1⟩⟩

/-- C4 counterexample: after `par_for(0, 0)` is submitted (a reachable
state, produced here by one `submit` action on a fresh single-thread pool),
the job has `next == max == 0` and is still linked on the job stack, so
spec invariant I3 ("once `next == max` it has been unlinked") fails. -/
theorem C4_cex_empty_job_on_stack :
    ((run (initState none none 1) [.submit (fun _ => (0:Int)) 0 0]).map
      (fun s => ((s.works.getD 0 default).next, (s.works.getD 0 default).max,
        decide (0 ∈ s.queue.jobs)))) = some (0, 0, true) := by
  decide

/-- C4 amended: in every reachable state, a job with `next < max` is on the
stack; and for a job submitted with `size ≥ 1` (so `min < max`), `next < max`
holds exactly while it is on the stack, so such a job is unlinked precisely
when `next` reaches `max`.  (A job submitted with `size == 0` is pushed with
`next == max` and is never unlinked, which is why the original I3 fails.) -/
theorem C4_amended_stack_invariant {s : SysState} (hs : Reachable s) :
    ∀ j, j < s.works.length →
      ((s.works.getD j default).next < (s.works.getD j default).max → j ∈ s.queue.jobs) ∧
      ((s.works.getD j default).min0 < (s.works.getD j default).max →
        ((s.works.getD j default).next < (s.works.getD j default).max ↔ j ∈ s.queue.jobs)) := by
  have hinv := jobInv_reachable hs
  intro j hj
  constructor
  · intro hlt
    by_cases hne : (s.works.getD j default).min0 < (s.works.getD j default).max
    · exact ((hinv.nonempty_stack j hj hne).2).mp hlt
    · have h1 := hinv.min_le_next j hj
      have h2 := hinv.min_le_max j hj
      omega
  · intro hne
    exact (hinv.nonempty_stack j hj hne).2

def C4exampleState : SysState :=
  (run (initState none none 1) [.submit (fun _ => 0) 0 2]).getD (initState none none 1)

theorem C4_amended_witness :
    ((C4exampleState.works.getD 0 default).next < (C4exampleState.works.getD 0 default).max
      → 0 ∈ C4exampleState.queue.jobs) ∧
    ((C4exampleState.works.getD 0 default).min0 < (C4exampleState.works.getD 0 default).max →
      ((C4exampleState.works.getD 0 default).next < (C4exampleState.works.getD 0 default).max
        ↔ 0 ∈ C4exampleState.queue.jobs)) :=
  C4_amended_stack_invariant
    ⟨none, none, 1, [.submit (fun _ => 0) 0 2], rfl⟩ 0 (by decide)


/-- C2 counterexample: `par_for(0, 0)` on a two-thread pool; the submitter
exits its loop and reads `exit_status = 0` before the pool worker claims
from the never-unlinked empty job and invokes the task at index `0`, which
returns `7`.  The trace ends with the submitter returned `0` although an
invocation of its job returned the non-zero status `7` (and recorded it in
`exit_status`), so the claim's implication fails as stated. -/
theorem C2_cex_failure_after_return :
    ((run (initState none none 2)
      [.submit (fun _ => (7:Int)) 0 0, .loop 1, .ret 1, .loop 0, .finish 0]).map
      (fun s => ((s.threads.getD 1 default).phase, s.log,
        (s.works.getD 0 default).exitStatus)))
      = some (.done 0, [(0, 0, 7)], 7) := by
  decide

/-- C2 amended: for a job submitted with `size ≥ 1` (`min < max`), once its
submitter has returned `r`: every completed invocation of the job with a
non-zero status forces `r ≠ 0`, and a non-zero `r` is the status actually
returned by some invocation of the job (zero results are never written to
`exit_status`, so a later zero cannot mask a failure).  The unamended claim
fails only for `size == 0`, where an invocation from the leftover empty job
can fail after `par_for` has already returned `0`. -/
theorem C2_amended_failure_reporting (s : SysState) (tid : Nat) (j : JobId) (r : Int)
    (hs : Reachable s)
    (hth : s.threads.get? tid = some ⟨some j, .done r⟩)
    (hsz : (s.works.getD j default).min0 < (s.works.getD j default).max) :
    (∀ i st, (j, i, st) ∈ s.log → st ≠ 0 → r ≠ 0) ∧
    (r ≠ 0 → ∃ i, (j, i, r) ∈ s.log ∧ r = (s.works.getD j default).f i) := by
  have hinv := jobInv_reachable hs
  have htmem : (⟨some j, .done r⟩ : Thread) ∈ s.threads := List.get?_mem hth
  have hjlt : j < s.works.length := hinv.owned_lt _ htmem j rfl
  obtain ⟨-, -, hexit⟩ :=
    hinv.owner_fin _ htmem j rfl (Or.inr ⟨r, rfl⟩) hsz
  have hexit' : (s.works.getD j default).exitStatus = r := hexit r rfl
  constructor
  · intro i st hmem hst
    have := hinv.fail_exit j hjlt i st hmem hst
    rw [hexit'] at this
    exact this
  · intro hr
    have hne : (s.works.getD j default).exitStatus ≠ 0 := by rw [hexit']; exact hr
    obtain ⟨i, hi⟩ := hinv.exit_logged j hjlt hne
    rw [hexit'] at hi
    refine ⟨i, hi, ?st⟩
    have := hinv.log_status (j, i, r) hi
    exact this

def C2exampleState : SysState :=
  (run (initState none none 1)
    [.submit (fun _ => 5) 0 1, .loop 0, .finish 0, .loop 0, .ret 0]).getD
    (initState none none 1)

theorem C2_amended_witness :
    (C2exampleState.threads.get? 0 = some ⟨some 0, .done 5⟩ ∧
      (C2exampleState.works.getD 0 default).min0 < (C2exampleState.works.getD 0 default).max) ∧
    ((∀ i st, (0, i, st) ∈ C2exampleState.log → st ≠ 0 → (5:Int) ≠ 0) ∧
      ((5:Int) ≠ 0 → ∃ i, ((0:Nat), i, (5:Int)) ∈ C2exampleState.log ∧
        (5:Int) = (C2exampleState.works.getD 0 default).f i)) :=
  ⟨⟨by decide, by decide⟩,
    C2_amended_failure_reporting C2exampleState 0 0 5
      ⟨none, none, 1,
        [.submit (fun _ => 5) 0 1, .loop 0, .finish 0, .loop 0, .ret 0], rfl⟩
      (by decide) (by decide)⟩

/-- C3 counterexample: `par_for(0, 0)` on a two-thread pool; the submitter's
loop exits (running was false), then the worker claims from the
never-unlinked empty job, making `active_workers = 1` (running true again),
and the submitter then returns.  The final state has the submitter returned
while a claimed iteration of its job is still executing and the job's
`running()` predicate is true, refuting "never while any claimed iteration
of the submitted job is still executing". -/
theorem C3_cex_return_while_executing :
    ((run (initState none none 2)
      [.submit (fun _ => (0:Int)) 0 0, .loop 1, .loop 0, .ret 1]).map
      (fun s => ((s.threads.getD 1 default).phase, (s.threads.getD 0 default).phase,
        (s.works.getD 0 default).running)))
      = some (.done 0, .executing 0 0, true) := by
  decide

/-- C3 amended: (a) the submitter's worker loop continues while
`owned_job->running()` holds — a loop step taken when the owned job is
running never moves the owner to `returning` or `done`; and (b) for a job
submitted with `size ≥ 1`, whenever its submitter has exited the loop
(phase `returning` or `done`), the job's `running()` predicate is false and
no claimed iteration of it is still executing.  The unamended claim fails
only for `size == 0` jobs, which stay on the stack and can be re-claimed
after the owner's loop has exited. -/
theorem C3_amended_returns_after_running_false :
    (∀ (s s' : SysState) (tid : Nat) (t : Thread) (j : JobId),
      s.threads.get? tid = some t → t.owned = some j → t.phase = .atLoop →
      (s.works.getD j default).running = true →
      loopStep tid s = some s' →
      (s'.threads.getD tid default).phase ≠ .returning ∧
      ∀ r, (s'.threads.getD tid default).phase ≠ .done r) ∧
    (∀ (s : SysState) (tid : Nat) (t : Thread) (j : JobId),
      Reachable s →
      s.threads.get? tid = some t → t.owned = some j →
      (t.phase = .returning ∨ ∃ r, t.phase = .done r) →
      (s.works.getD j default).min0 < (s.works.getD j default).max →
      (s.works.getD j default).running = false ∧ inflight s j = []) := by
  constructor
  · intro s s' tid t j hget hown hph hrun h
    unfold loopStep at h
    rw [hget] at h
    simp only [hph, hown] at h
    rw [if_pos hrun] at h
    have htlt : tid < s.threads.length := (List.get?_eq_some.mp hget).1
    cases hjobs : s.queue.jobs with
    | nil =>
      simp only [hjobs] at h
      injection h with h
      subst h
      dsimp only
      rw [getD_set_self _ _ htlt]
      exact ⟨by simp, fun r => by simp⟩
    | cons j0 rest =>
      simp only [hjobs] at h
      injection h with h
      subst h
      dsimp only
      rw [getD_set_self _ _ htlt]
      exact ⟨by simp, fun r => by simp⟩
  · intro s tid t j hs hget hown hph hne
    have hinv := jobInv_reachable hs
    have htmem : t ∈ s.threads := List.get?_mem hget
    obtain ⟨hnx, hac, -⟩ := hinv.owner_fin t htmem j hown hph hne
    have hjlt : j < s.works.length := hinv.owned_lt t htmem j hown
    constructor
    · unfold Work.running
      rw [hnx, hac]
      simp
    · have := hinv.active_eq j hjlt
      rw [hac] at this
      have hlen : (inflight s j).length = 0 := by omega
      exact List.length_eq_zero.mp hlen

theorem C3_amended_witness :
    ((C2exampleState.threads.get? 0 = some ⟨some 0, .done 5⟩) ∧
      (C2exampleState.works.getD 0 default).min0 < (C2exampleState.works.getD 0 default).max) ∧
    ((C2exampleState.works.getD 0 default).running = false ∧
      inflight C2exampleState 0 = []) :=
  ⟨⟨by decide, by decide⟩,
    C3_amended_returns_after_running_false.2 C2exampleState 0 ⟨some 0, .done 5⟩ 0
      ⟨none, none, 1,
        [.submit (fun _ => 5) 0 1, .loop 0, .finish 0, .loop 0, .ret 0], rfl⟩
      (by decide) rfl (Or.inr ⟨5, rfl⟩) (by decide)⟩

/-- C1: the code contradicts the claim (and spec scenario 4): submitting
`par_for(0, 0)` on a two-thread pool pushes the empty job; the worker claims
from it and invokes `f` at the out-of-range index `0` before the submitter
returns `0`.  The final state shows the submitter returned `0` but `f` was
invoked once (logged `(job 0, idx 0, status 0)`), and the job is still on
the stack — so "for size == 0 it returns 0 without invoking f" fails, as
does "f is invoked exactly once for each idx in [min, min+size)" (that set
is empty here). -/
theorem C1_bug_empty_job_invokes_task :
    ((run (initState none none 2)
      [.submit (fun _ => (0:Int)) 0 0, .loop 0, .finish 0, .loop 1, .ret 1]).map
      (fun s => (s.log, (s.threads.getD 1 default).phase, decide (0 ∈ s.queue.jobs))))
      = some ([(0, 0, 0)], .done 0, true) := by
  decide


/-- C10: `halide_shutdown_thread_pool` returns immediately (state unchanged)
when the pool is not initialized; otherwise it sets `shutdown` and wakes
everyone, each pool worker's next loop-head evaluation then exits, the join
phase removes the spawned workers and clears the initialization latch; and
a subsequent `par_for` lazily re-initializes the pool (spawning
`num_threads - 1` workers again) and succeeds, as the closing concrete
scenario shows: after a full run, shutdown, and re-submission, the second
submitter has returned 0 and both invocations are logged. -/
theorem C10_shutdown_and_reinit :
    (∀ s : SysState, s.initialized = false → beginShutdownStep s = some s) ∧
    (∀ s s' : SysState, beginShutdownStep s = some s' → s.initialized = true →
      s'.queue.shutdown = true) ∧
    (∀ (s : SysState) (tid : Nat) (t : Thread) (s' : SysState),
      s.threads.get? tid = some t → t.owned = none → t.phase = .atLoop →
      s.queue.shutdown = true → loopStep tid s = some s' →
      (s'.threads.getD tid default).phase = .done 0) ∧
    (∀ s s' : SysState, joinStep s = some s' →
      s'.initialized = false ∧ workerCountN s' = 0) ∧
    (((run (initState (some 2) none 8)
        [.submit (fun _ => (0:Int)) 0 1, .loop 1, .finish 1, .loop 1, .ret 1,
          .beginShutdown, .loop 0, .join,
          .submit (fun _ => (0:Int)) 5 1, .loop 2, .finish 2, .loop 2, .ret 2]).map
      (fun s => (s.initialized, workerCountN s, (s.threads.getD 2 default).phase, s.log)))
      = some (true, 1, .done 0, [(0, 0, 0), (1, 5, 0)])) := by
  refine ⟨?imm, ?flag, ?wexit, ?join, ?scenario⟩
  case imm =>
    intro s h
    unfold beginShutdownStep
    rw [if_pos h]
  case flag =>
    intro s s' h hi
    unfold beginShutdownStep at h
    rw [if_neg (by rw [hi]; exact fun hc => Bool.noConfusion hc)] at h
    split at h
    · injection h with h
      subst h
      rfl
    · exact Option.noConfusion h
  case wexit =>
    intro s tid t s' hget hown hph hsd h
    unfold loopStep at h
    rw [hget] at h
    simp only [hph, hown] at h
    have hrun : s.queue.running = false := by
      unfold WorkQueue.running
      rw [hsd]
      rfl
    rw [if_neg (by rw [hrun]; exact Bool.false_ne_true)] at h
    injection h with h
    subst h
    have htlt : tid < s.threads.length := (List.get?_eq_some.mp hget).1
    dsimp only
    rw [getD_set_self _ _ htlt]
  case join =>
    intro s s' h
    unfold joinStep at h
    split at h
    · injection h with h
      subst h
      refine ⟨rfl, ?wc⟩
      unfold workerCountN
      dsimp only
      rw [List.countP_eq_zero]
      intro u hu
      have h2 := (List.mem_filter.mp hu).2
      unfold Thread.isWorker
      simp only [Bool.not_eq_true, Option.isNone_eq_false_iff]
      exact h2
    · exact Option.noConfusion h
  case scenario =>
    rfl

theorem C10_witness :
    (initState none none 3).initialized = false ∧
    beginShutdownStep (initState none none 3) = some (initState none none 3) :=
  ⟨rfl, C10_shutdown_and_reinit.1 (initState none none 3) rfl⟩



/-- A task body for the nested-submission analysis (claim C9): either
return a status immediately, or perform a nested `par_for(mn, sz, body)`
and return its status — the shape of a task that itself calls `par_for`. -/
inductive TProg where
  | ret (status : Int) : TProg
  | pfor (mn sz : Int) (body : Int → TProg) : TProg

/-- What the single thread of the sequential model is currently running:
a task body, or the `worker_thread` loop for the given owned job. -/
inductive SCall where
  | runT (p : TProg)
  | loopT (owned : Nat)

/-- The `work` record of the sequential (one-thread, `num_threads == 1`)
model of the scheduler, for tasks that may themselves submit. -/
structure SWork where
  body : Int → TProg
  next : Int
  max : Int
  activeWorkers : Int
  exitStatus : Int

instance : Inhabited SWork := ⟨⟨fun j => .ret 0, 0, 0, 0, 0⟩⟩

/-- `work::running()` in the sequential model. -/
def SWork.srunning (w : SWork) : Bool := w.next < w.max || w.activeWorkers > 0

/-- State of the sequential model: every job record ever created, and the
job stack (indices into `works`). -/
structure SeqSt where
  works : List SWork
  jobs : List Nat

/-- Fuel-indexed interpreter for the scheduler run by a single thread (the
`num_threads == 1` configuration: no pool workers exist).  It is the same
code as the transition system above, specialized to one thread:
`.runT p` executes a task body (a nested `pfor` performs
`default_do_par_for`: push the job, run the worker loop owning it, read
`exit_status`); `.loopT owned` is one `worker_thread` iteration — exit when
the owned job stops running, otherwise claim from the top-of-stack job,
run the task, record a non-zero status, decrement `active_workers`, loop.
With jobs outstanding but an empty stack the single thread would block on
`wakeup_owners` forever, which (like running out of fuel) yields `none`;
`none` therefore means the call has not returned. -/
def seqStep : Nat → SCall → SeqSt → Option (Int × SeqSt)
  | 0, _, _ => none
  | _ + 1, .runT (.ret st), s => some (st, s)
  | fuel + 1, .runT (.pfor mn sz body), s =>
    let jid := s.works.length
    let w : SWork := ⟨body, mn, mn + sz, 0, 0⟩
    let s1 : SeqSt := ⟨s.works ++ [w], jid :: s.jobs⟩
    match seqStep fuel (.loopT jid) s1 with
    | none => none
    | some (_, s2) => some ((s2.works.getD jid default).exitStatus, s2)
  | fuel + 1, .loopT owned, s =>
    if (s.works.getD owned default).srunning then
      match s.jobs with
      | [] => none
      | j :: rest =>
        let wj := s.works.getD j default
        let works1 := s.works.set j
          { wj with next := wj.next + 1, activeWorkers := wj.activeWorkers + 1 }
        let jobs1 := if wj.next + 1 = wj.max then rest else s.jobs
        match seqStep fuel (.runT (wj.body wj.next)) ⟨works1, jobs1⟩ with
        | none => none
        | some (result, s2) =>
          let wj2 := s2.works.getD j default
          let works2 := s2.works.set j
            { wj2 with
              exitStatus := if result ≠ 0 then result else wj2.exitStatus
              activeWorkers := wj2.activeWorkers - 1 }
          seqStep fuel (.loopT owned) ⟨works2, s2.jobs⟩
    else some (0, s)

/-- `default_do_par_for(min, size, body)` on a fresh single-thread pool:
the returned status, or `none` if the call has not returned within `fuel`
loop iterations. -/
def seqParFor (fuel : Nat) (mn sz : Int) (body : Int → TProg) : Option Int :=
  (seqStep fuel (.runT (.pfor mn sz body)) ⟨[], []⟩).map Prod.fst

/-- The inner task of the divergence scenario: do nothing, succeed. -/
def C9innerBody : Int → TProg := fun j => .ret 0

/-- The outer task of the divergence scenario: each iteration performs a
nested empty `par_for(0, 0, C9innerBody)`. -/
def C9outerBody : Int → TProg := fun i => .pfor 0 0 C9innerBody

theorem C9_zombie_loop (fuel : Nat) : ∀ (k : Int), 0 ≤ k →
    seqStep fuel (.loopT 0)
      ⟨[⟨C9outerBody, 1, 2, 0, 0⟩, ⟨C9innerBody, k, 0, 0, 0⟩], [1, 0]⟩ = none := by
  induction fuel with
  | zero => intro k hk; rfl
  | succ n ih =>
    intro k hk
    have hk1 : ¬(k + 1 = 0) := by omega
    cases n with
    | zero => rfl
    | succ m =>
      have hred : seqStep (m + 1 + 1) (.loopT 0)
          ⟨[⟨C9outerBody, 1, 2, 0, 0⟩, ⟨C9innerBody, k, 0, 0, 0⟩], [1, 0]⟩
          = seqStep (m + 1) (.loopT 0)
            ⟨[⟨C9outerBody, 1, 2, 0, 0⟩,
              ⟨C9innerBody, k + 1, 0, (0 : Int) + 1 - 1, 0⟩],
              if k + 1 = 0 then [0] else [1, 0]⟩ := rfl
      rw [hred, if_neg hk1]
      have hz := ih (k + 1) (by omega)
      convert hz using 4

/-- C9: the code contradicts the claim.  In the degenerate configuration
the claim itself appeals to (the submitter alone drives all iterations,
`num_threads == 1`), an outer `par_for(0, 2)` whose task performs a nested
empty `par_for(0, 0)` never returns, for any amount of fuel: the first
outer iteration pushes the inner empty job, which the inner call leaves on
the stack with `next == max`; every later loop iteration of the outer
submitter claims from that leftover job (its cursor grows without bound,
never again equal to `max`), so the second outer iteration is never
claimed and `par_for` never terminates. -/
theorem C9_nested_empty_par_for_diverges (fuel : Nat) :
    seqParFor fuel 0 2 C9outerBody = none := by
  unfold seqParFor
  rcases fuel with _ | _ | _ | _ | m
  · rfl
  · rfl
  · rfl
  · rfl
  · have h := C9_zombie_loop (m + 2) 0 (le_refl 0)
    have hred : seqStep (m + 3) (.loopT 0) ⟨[⟨C9outerBody, 0, 2, 0, 0⟩], [0]⟩
        = seqStep (m + 2) (.loopT 0)
          ⟨[⟨C9outerBody, 1, 2, 0, 0⟩, ⟨C9innerBody, 0, 0, 0, 0⟩], [1, 0]⟩ := rfl
    have hmain : seqStep (m + 4) (.runT (.pfor 0 2 C9outerBody)) ⟨[], []⟩ = none := by
      show (match seqStep (m + 3) (.loopT 0) ⟨[⟨C9outerBody, 0, 2, 0, 0⟩], [0]⟩ with
        | none => none
        | some (_, s2) => some ((s2.works.getD 0 default).exitStatus, s2)) = none
      rw [hred, h]
    rw [hmain]
    rfl

end ThreadPool
